import Mathlib

/-!
# Rhythm game timing, latency-compensation and scoring engine

A shallow embedding of the timing core of the rhythm-game repository:

* `SmartLatencyCompensator` (src/unnamed/part_000),
* the drift-corrected metronome scheduler (src/js/modules/audio.js),
* `normalizeBar` (src/unnamed/part_001),
* the quarter-beat grouping and the tap-to-beat matchers
  `analyzeSimplePerformance` and `analyzePerformance` (src/unnamed/part_003),
  and `SimpleRhythmTracker.analyzePerformance` (src/js/simple-timing.js).

Times and durations are modelled as exact rationals (milliseconds or
quarter-beats).  JavaScript `Math.round` is modelled as `jsRound`
(round half toward positive infinity), and division by zero follows the
Lean convention `x / 0 = 0` (no theorem below depends on that corner).
-/

namespace RhythmGame

/-- JavaScript `Math.round`: round half toward positive infinity. -/
def jsRound (q : ℚ) : ℤ := ⌊q + 1 / 2⌋

/-! ## SmartLatencyCompensator (src/unnamed/part_000) -/

/-- One record of the compensator's tap history, as built by `learnFromTap`
(the `timing` object; the wall-clock `timestamp` field is never read and is
omitted). -/
structure Timing where
  tapTime : ℚ
  expectedTime : ℚ
  difference : ℚ
  wasAccurate : Bool
deriving DecidableEq, Repr

/-- State of a `SmartLatencyCompensator`.  `adaptCalls` is instrumentation:
it counts how many times `analyzeAndAdapt` has been invoked, is read by no
operation of the model, and stands in for the observable fact "the adaptation
step ran". -/
structure Compensator where
  baseCompensation : ℚ
  adaptiveOffset : ℚ
  enabled : Bool
  learningMode : Bool
  tapHistory : List Timing
  adaptCalls : ℕ
deriving DecidableEq, Repr

/-- `this.maxHistory = 50`. -/
def maxHistory : ℕ := 50

/-- The constructor, with the browser-sniffed `detectBaseLatency()` result
abstracted as the parameter `base`. -/
def initCompensator (base : ℚ) : Compensator :=
  { baseCompensation := base, adaptiveOffset := 0, enabled := true,
    learningMode := true, tapHistory := [], adaptCalls := 0 }

/-- `getCurrentCompensation()`. -/
def getCurrentCompensation (c : Compensator) : ℚ :=
  if c.enabled then c.baseCompensation + c.adaptiveOffset else 0

/-- `compensateExpectedTime(rawExpectedTime)`. -/
def compensateExpectedTime (c : Compensator) (rawExpectedTime : ℚ) : ℚ :=
  if c.enabled then rawExpectedTime - getCurrentCompensation c else rawExpectedTime

/-- `analyzeAndAdapt()`: look at the last 20 history entries, keep the
accurate ones, require at least 5, and when the average offset exceeds the
30 ms threshold move `adaptiveOffset` by 30% of it (rounded), clamped to
[-200, 200]. -/
def analyzeAndAdapt (c : Compensator) : Compensator :=
  let recentTaps := c.tapHistory.drop (c.tapHistory.length - 20)
  let accurateTaps := recentTaps.filter (fun t => t.wasAccurate)
  if accurateTaps.length < 5 then c
  else
    let avgOffset := (accurateTaps.map (fun t => t.difference)).sum / (accurateTaps.length : ℚ)
    if 30 < |avgOffset| then
      let adjustment : ℤ := jsRound (avgOffset * (3 / 10))
      { c with adaptiveOffset := max (-200) (min 200 (c.adaptiveOffset - (adjustment : ℚ))) }
    else c

/-- The history update inside `learnFromTap`: `this.tapHistory.push(timing)`
followed by `if (this.tapHistory.length > this.maxHistory) this.tapHistory.shift()`. -/
def pushSample (c : Compensator) (timing : Timing) : List Timing :=
  let hist0 := c.tapHistory ++ [timing]
  if maxHistory < hist0.length then hist0.drop 1 else hist0

/-- `learnFromTap(tapTime, expectedTime, wasAccurate)`: push a timing record,
evict the oldest entry past capacity 50, and run `analyzeAndAdapt` whenever
the (post-eviction) history length is at least 10 and a multiple of 10. -/
def learnFromTap (c : Compensator) (tapTime expectedTime : ℚ) (wasAccurate : Bool) :
    Compensator :=
  if c.learningMode then
    let hist := pushSample c ⟨tapTime, expectedTime, tapTime - expectedTime, wasAccurate⟩
    if 10 ≤ hist.length ∧ hist.length % 10 = 0 then
      analyzeAndAdapt { c with tapHistory := hist, adaptCalls := c.adaptCalls + 1 }
    else { c with tapHistory := hist }
  else c

/-- `setManualCompensation(ms)`. -/
def setManualCompensation (c : Compensator) (ms : ℚ) : Compensator :=
  { c with baseCompensation := ms, adaptiveOffset := 0, learningMode := false }

/-- `calibrateFromExternalTest(latencyMs)`. -/
def calibrateFromExternalTest (c : Compensator) (latencyMs : ℚ) : Compensator :=
  { c with
    baseCompensation := (jsRound latencyMs : ℚ)
    adaptiveOffset := 0
    learningMode := true }

/-- `resetLearning()`. -/
def resetLearning (c : Compensator) : Compensator :=
  { c with tapHistory := [], adaptiveOffset := 0, learningMode := true }

/-- `setEnabled(enabled)`. -/
def setCompensatorEnabled (c : Compensator) (b : Bool) : Compensator :=
  { c with enabled := b }

/-- The mutating operations a caller can perform on a compensator. -/
inductive CompOp where
  | learn (tapTime expectedTime : ℚ) (wasAccurate : Bool)
  | setEnabled (b : Bool)
  | setManual (ms : ℚ)
  | calibrate (ms : ℚ)
  | reset
deriving DecidableEq, Repr

def applyOp (c : Compensator) : CompOp → Compensator
  | .learn t e w => learnFromTap c t e w
  | .setEnabled b => setCompensatorEnabled c b
  | .setManual ms => setManualCompensation c ms
  | .calibrate ms => calibrateFromExternalTest c ms
  | .reset => resetLearning c

def applyOps (c : Compensator) (ops : List CompOp) : Compensator :=
  ops.foldl applyOp c

/-! ## Metronome scheduler (src/js/modules/audio.js) -/

/-- The scheduler's drift-correction state: `expectedBeatTime` is the
monotonic time at which the next tick is due. -/
structure MetronomeState where
  expectedBeatTime : ℚ
deriving DecidableEq, Repr

/-- `scheduleNextBeat()`: advance `expectedBeatTime` by the interval *before*
computing the wait `max 0 (expectedBeatTime - now)`.  Returns the new state
and the wait passed to `setTimeout`. -/
def scheduleNextBeat (intervalMs : ℚ) (s : MetronomeState) (now : ℚ) :
    MetronomeState × ℚ :=
  let expected := s.expectedBeatTime + intervalMs
  (⟨expected⟩, max 0 (expected - now))

/-- `startMetronome()` sets `expectedBeatTime = metronomeStartTime` (tick 0
fires synchronously, then `scheduleNextBeat` runs). -/
def startMetronome (anchorTime : ℚ) : MetronomeState :=
  ⟨anchorTime⟩

/-- Run the scheduler: one `scheduleNextBeat` call per fired tick, where
`nows` lists the clock reading observed inside each call. -/
def runScheduler (intervalMs anchorTime : ℚ) (nows : List ℚ) : MetronomeState :=
  nows.foldl (fun s now => (scheduleNextBeat intervalMs s now).1)
    (startMetronome anchorTime)

theorem runScheduler_foldl (intervalMs : ℚ) (nows : List ℚ) (s : MetronomeState) :
    (nows.foldl (fun s now => (scheduleNextBeat intervalMs s now).1) s).expectedBeatTime
      = s.expectedBeatTime + nows.length * intervalMs := by
  induction nows generalizing s with
  | nil => simp
  | cons n rest ih =>
      rw [List.foldl_cons, ih]
      simp only [scheduleNextBeat, List.length_cons]
      push_cast
      ring

/-- **C2.** Across any number of ticks, with any per-tick callback jitter
bounded below the interval, `expectedBeatTime` after tick `k` (that is,
after `k + 1` calls of `scheduleNextBeat`, counting the one following
tick 0) equals `anchorTime + (k+1) * intervalMs` exactly: the expected time
advances by exactly `intervalMs` per tick before the wait is computed, so no
cumulative drift accumulates.  The clock reading seen by the call after
tick `k` is `anchorTime + k * intervalMs + jitter k`. -/
theorem scheduler_zero_drift (intervalMs anchorTime : ℚ) (jitters : List ℚ)
    (hjit : ∀ j ∈ jitters, 0 ≤ j ∧ j < intervalMs) :
    (runScheduler intervalMs anchorTime
        (jitters.enum.map (fun p => anchorTime + (p.1 : ℚ) * intervalMs + p.2))
      ).expectedBeatTime
      = anchorTime + jitters.length * intervalMs := by
  have h := runScheduler_foldl intervalMs
    (jitters.enum.map (fun p => anchorTime + (p.1 : ℚ) * intervalMs + p.2))
    (startMetronome anchorTime)
  simpa [runScheduler, startMetronome] using h

/-- Witness for C2 at a concrete run: interval 600 ms, anchor 1000 ms, two
ticks with jitters 5 ms and 10 ms. -/
theorem scheduler_zero_drift_witness :
    (runScheduler 600 1000
        (([(5 : ℚ), 10]).enum.map (fun p => 1000 + (p.1 : ℚ) * 600 + p.2))
      ).expectedBeatTime = 1000 + 2 * 600 := by
  have h := scheduler_zero_drift 600 1000 [5, 10]
    (by intro j hj; fin_cases hj <;> norm_num)
  simpa using h

/-- **C3.** When compensation is enabled, `compensateExpectedTime` returns
`rawExpectedTime - (baseCompensation + adaptiveOffset)`; when disabled it is
the identity. -/
theorem compensate_contract (c : Compensator) (rawExpectedTime : ℚ) :
    (c.enabled = true →
      compensateExpectedTime c rawExpectedTime
        = rawExpectedTime - (c.baseCompensation + c.adaptiveOffset))
    ∧ (c.enabled = false →
      compensateExpectedTime c rawExpectedTime = rawExpectedTime) := by
  constructor <;> intro h <;>
    simp [compensateExpectedTime, getCurrentCompensation, h]

/-- Witness for C3: an enabled compensator with base 165 subtracts 165 from a
raw expected time of 1000; a disabled one returns 1000 unchanged. -/
theorem compensate_contract_witness :
    compensateExpectedTime (initCompensator 165) 1000 = 1000 - (165 + 0)
    ∧ compensateExpectedTime
        (setCompensatorEnabled (initCompensator 165) false) 1000 = 1000 :=
  ⟨(compensate_contract (initCompensator 165) 1000).1 rfl,
   (compensate_contract (setCompensatorEnabled (initCompensator 165) false) 1000).2 rfl⟩

theorem analyzeAndAdapt_offset_bounds (c : Compensator)
    (h : -200 ≤ c.adaptiveOffset ∧ c.adaptiveOffset ≤ 200) :
    -200 ≤ (analyzeAndAdapt c).adaptiveOffset
      ∧ (analyzeAndAdapt c).adaptiveOffset ≤ 200 := by
  simp only [analyzeAndAdapt]
  split
  · exact h
  · split
    · refine ⟨le_max_left _ _, ?_⟩
      exact max_le (by norm_num) (min_le_left _ _)
    · exact h

theorem learnFromTap_offset_bounds (c : Compensator) (t e : ℚ) (w : Bool)
    (h : -200 ≤ c.adaptiveOffset ∧ c.adaptiveOffset ≤ 200) :
    -200 ≤ (learnFromTap c t e w).adaptiveOffset
      ∧ (learnFromTap c t e w).adaptiveOffset ≤ 200 := by
  rw [learnFromTap]
  split
  · dsimp only
    split
    · exact analyzeAndAdapt_offset_bounds _ (by simpa using h)
    · simpa using h
  · exact h

theorem applyOp_offset_bounds (c : Compensator) (op : CompOp)
    (h : -200 ≤ c.adaptiveOffset ∧ c.adaptiveOffset ≤ 200) :
    -200 ≤ (applyOp c op).adaptiveOffset ∧ (applyOp c op).adaptiveOffset ≤ 200 := by
  cases op with
  | learn t e w => exact learnFromTap_offset_bounds c t e w h
  | setEnabled b => simpa [applyOp, setCompensatorEnabled] using h
  | setManual ms => norm_num [applyOp, setManualCompensation]
  | calibrate ms => norm_num [applyOp, calibrateFromExternalTest]
  | reset => norm_num [applyOp, resetLearning]

/-- **C5.** Starting from a freshly constructed compensator, any sequence of
learning, enable/disable, manual-override, calibration and reset operations
keeps `adaptiveOffset` within [-200, 200]. -/
theorem adaptiveOffset_always_clamped (base : ℚ) (ops : List CompOp) :
    -200 ≤ (applyOps (initCompensator base) ops).adaptiveOffset
      ∧ (applyOps (initCompensator base) ops).adaptiveOffset ≤ 200 := by
  have hinit : -200 ≤ (initCompensator base).adaptiveOffset
      ∧ (initCompensator base).adaptiveOffset ≤ 200 := by
    norm_num [initCompensator]
  rw [applyOps]
  exact List.foldlRecOn ops applyOp (initCompensator base) hinit
    (fun c hc op _ => applyOp_offset_bounds c op hc)

/-! ### The learning loop (C4) -/

/-- Input to one `learnFromTap` call. -/
structure Sample where
  tapTime : ℚ
  expectedTime : ℚ
  wasAccurate : Bool
deriving DecidableEq, Repr

/-- The history record `learnFromTap` builds from a sample. -/
def mkTiming (s : Sample) : Timing :=
  ⟨s.tapTime, s.expectedTime, s.tapTime - s.expectedTime, s.wasAccurate⟩

/-- Feed a list of samples to a freshly constructed compensator. -/
def runLearn (base : ℚ) (samples : List Sample) : Compensator :=
  samples.foldl (fun c s => learnFromTap c s.tapTime s.expectedTime s.wasAccurate)
    (initCompensator base)

/-- How often the adaptation step fires over `n` accepted samples: once for
each sample after which the (capacity-capped) history length `min (k+1) 50`
is at least 10 and a multiple of 10. -/
def adaptTimes (n : ℕ) : ℕ :=
  (List.range n).countP
    (fun k => decide (10 ≤ min (k + 1) maxHistory)
      && decide ((min (k + 1) maxHistory) % 10 = 0))

/-- Modelled from the spec's description of the adaptation step: take the
last 20 samples, keep only the accurate ones, require at least 5 before
adapting, compute the average error, and only when its absolute value
exceeds the 30 ms noise threshold subtract 30% of it (rounded) from the
adaptive offset, clamping to [-200, 200]. -/
def adaptSpecStep (c : Compensator) : Compensator :=
  let lastTwenty := c.tapHistory.drop (c.tapHistory.length - 20)
  let accurate := lastTwenty.filter (fun t => t.wasAccurate)
  if 5 ≤ accurate.length then
    let avgError := (accurate.map (fun t => t.difference)).sum / (accurate.length : ℚ)
    if 30 < |avgError| then
      let clamped := max (-200) (min 200 (c.adaptiveOffset - (jsRound (avgError * (3 / 10)) : ℚ)))
      { c with adaptiveOffset := clamped }
    else c
  else c

theorem analyzeAndAdapt_eq_adaptSpecStep (c : Compensator) :
    analyzeAndAdapt c = adaptSpecStep c := by
  simp only [analyzeAndAdapt, adaptSpecStep]
  by_cases h : (List.filter (fun t => t.wasAccurate)
      (List.drop (c.tapHistory.length - 20) c.tapHistory)).length < 5
  · have h5 : ¬ 5 ≤ (List.filter (fun t => t.wasAccurate)
        (List.drop (c.tapHistory.length - 20) c.tapHistory)).length := by omega
    rw [if_pos h, if_neg h5]
  · have h5 : 5 ≤ (List.filter (fun t => t.wasAccurate)
        (List.drop (c.tapHistory.length - 20) c.tapHistory)).length := by omega
    rw [if_neg h, if_pos h5]

theorem analyzeAndAdapt_tapHistory (c : Compensator) :
    (analyzeAndAdapt c).tapHistory = c.tapHistory := by
  simp only [analyzeAndAdapt]
  split
  · rfl
  · split <;> rfl

theorem analyzeAndAdapt_adaptCalls (c : Compensator) :
    (analyzeAndAdapt c).adaptCalls = c.adaptCalls := by
  simp only [analyzeAndAdapt]
  split
  · rfl
  · split <;> rfl

theorem analyzeAndAdapt_learningMode (c : Compensator) :
    (analyzeAndAdapt c).learningMode = c.learningMode := by
  simp only [analyzeAndAdapt]
  split
  · rfl
  · split <;> rfl

theorem learnFromTap_state (c : Compensator) (t e : ℚ) (w : Bool)
    (hl : c.learningMode = true) :
    (learnFromTap c t e w).tapHistory = pushSample c ⟨t, e, t - e, w⟩
    ∧ (learnFromTap c t e w).learningMode = true
    ∧ (learnFromTap c t e w).adaptCalls
        = c.adaptCalls
          + (if 10 ≤ (pushSample c ⟨t, e, t - e, w⟩).length
                ∧ (pushSample c ⟨t, e, t - e, w⟩).length % 10 = 0 then 1 else 0) := by
  rw [learnFromTap, if_pos hl]
  dsimp only
  split
  next hcond =>
    exact ⟨by simp [analyzeAndAdapt_tapHistory],
      by simp [analyzeAndAdapt_learningMode, hl],
      by simp [analyzeAndAdapt_adaptCalls]⟩
  next hcond =>
    exact ⟨rfl, hl, by simp⟩

theorem adaptTimes_succ (n : ℕ) :
    adaptTimes (n + 1)
      = adaptTimes n
        + (if 10 ≤ min (n + 1) maxHistory ∧ (min (n + 1) maxHistory) % 10 = 0
            then 1 else 0) := by
  rw [adaptTimes, adaptTimes, List.range_succ, List.countP_append]
  congr 1
  rw [List.countP_cons, List.countP_nil]
  by_cases hc : 10 ≤ min (n + 1) maxHistory ∧ (min (n + 1) maxHistory) % 10 = 0
  · rw [if_pos hc]
    simp [hc.1, hc.2]
  · rw [if_neg hc]
    rw [not_and_or] at hc
    rcases hc with hc | hc <;> simp [hc]

theorem pushSample_step (c : Compensator) (x : Timing) (m : List Timing) (n : ℕ)
    (hh : c.tapHistory = m.drop (n - maxHistory)) (hm : m.length = n) :
    pushSample c x = (m ++ [x]).drop (n + 1 - maxHistory) := by
  simp only [pushSample, hh, maxHistory] at *
  rcases lt_or_le n 50 with hn | hn
  · have h0 : n - 50 = 0 := by omega
    have h1 : n + 1 - 50 = 0 := by omega
    rw [h0, h1, List.drop_zero, List.drop_zero]
    rw [if_neg (by simp [hm]; omega)]
  · have hdlen : ((m.drop (n - 50)).length) = 50 := by
      rw [List.length_drop, hm]; omega
    rw [if_pos (by rw [List.length_append, hdlen]; simp)]
    rw [List.drop_append_of_le_length (by rw [hdlen]; omega)]
    rw [List.drop_drop]
    rw [List.drop_append_of_le_length (by rw [hm]; omega)]
    have harith : n - 50 + 1 = n + 1 - 50 := by omega
    rw [harith]

theorem runLearn_invariants (base : ℚ) (samples : List Sample) :
    (runLearn base samples).learningMode = true
    ∧ (runLearn base samples).tapHistory
        = (samples.map mkTiming).drop (samples.length - maxHistory)
    ∧ (runLearn base samples).adaptCalls = adaptTimes samples.length := by
  induction samples using List.reverseRecOn with
  | nil => exact ⟨rfl, rfl, rfl⟩
  | append_singleton l a ih =>
      obtain ⟨ihl, ihh, ihc⟩ := ih
      have hfold : runLearn base (l ++ [a])
          = learnFromTap (runLearn base l) a.tapTime a.expectedTime a.wasAccurate := by
        simp [runLearn, List.foldl_append]
      have hstate := learnFromTap_state (runLearn base l)
        a.tapTime a.expectedTime a.wasAccurate ihl
      have hpush : pushSample (runLearn base l)
            ⟨a.tapTime, a.expectedTime, a.tapTime - a.expectedTime, a.wasAccurate⟩
          = ((l ++ [a]).map mkTiming).drop ((l ++ [a]).length - maxHistory) := by
        have := pushSample_step (runLearn base l) (mkTiming a) (l.map mkTiming)
          l.length (by simpa using ihh) (by simp)
        simpa [mkTiming] using this
      refine ⟨?_, ?_, ?_⟩
      · rw [hfold]; exact hstate.2.1
      · rw [hfold, hstate.1, hpush]
      · rw [hfold, hstate.2.2, ihc, hpush]
        have hlen : (((l ++ [a]).map mkTiming).drop ((l ++ [a]).length - maxHistory)).length
            = min (l.length + 1) maxHistory := by
          simp [List.length_drop]
          omega
        rw [hlen]
        have := adaptTimes_succ l.length
        simp only [List.length_append, List.length_singleton]
        omega

/-- **C4 (amended).** `learnFromTap` appends each accepted sample (as a
record with `difference = tapTime - expectedTime`) to a history bounded at
capacity 50 with FIFO eviction, and `analyzeAndAdapt` runs after each
accepted sample whose post-eviction history length is at least 10 and a
multiple of 10 — every 10th sample until the history fills at 50 samples,
and on every accepted sample thereafter.  When it runs it takes the last 20
samples, keeps only the accurate ones, does nothing if fewer than 5 remain,
computes their average error, and only if its absolute value exceeds 30 ms
subtracts round(avgError * 0.3) from the adaptive offset, then clamps to
[-200, 200]. -/
theorem learning_loop_behaviour (base : ℚ) (samples : List Sample) :
    (runLearn base samples).tapHistory
        = (samples.map mkTiming).drop (samples.length - maxHistory)
    ∧ (runLearn base samples).adaptCalls = adaptTimes samples.length
    ∧ ∀ c : Compensator, analyzeAndAdapt c = adaptSpecStep c :=
  ⟨(runLearn_invariants base samples).2.1, (runLearn_invariants base samples).2.2,
    analyzeAndAdapt_eq_adaptSpecStep⟩

/-- C4 counterexample: the claim says the adaptation step runs once for
every 10 accepted samples, i.e. 5 times over 52 samples; in the code, once
the history is pinned at capacity 50 the `length % 10 === 0` check is true
on every call, so after 52 accepted samples it has run 7 times (at samples
10, 20, 30, 40, 50, 51 and 52). -/
theorem adapt_runs_more_than_every_ten :
    (runLearn 165 (List.replicate 52 ⟨0, 0, false⟩)).adaptCalls = 7
    ∧ (52 : ℕ) / 10 = 5 ∧ (7 : ℕ) ≠ 5 := by
  refine ⟨?_, by norm_num, by norm_num⟩
  rw [(runLearn_invariants 165 (List.replicate 52 ⟨0, 0, false⟩)).2.2]
  simp only [List.length_replicate]
  decide

/-! ## Pattern elements and bar normalization (src/unnamed/part_001) -/

/-- The note-type strings appearing in the pattern data.  `other` stands for
any string that is none of the five named durations (every comparison in the
source is against one of these literals, so all other strings behave
alike). -/
inductive NoteType where
  | whole
  | half
  | quarter
  | eighth
  | sixteenth
  | other
deriving DecidableEq, Repr

/-- A pattern element: `{ type, rest, dotted }`, plus the `isBarline` marker
that the analysis code filters out. -/
structure Element where
  type : NoteType
  rest : Bool
  dotted : Bool
  isBarline : Bool
deriving DecidableEq, Repr

def quarterNoteEl : Element := ⟨.quarter, false, false, false⟩
def halfNoteEl : Element := ⟨.half, false, false, false⟩
def eighthNoteEl : Element := ⟨.eighth, false, false, false⟩
def sixteenthNoteEl : Element := ⟨.sixteenth, false, false, false⟩
def dottedEighthNote : Element := ⟨.eighth, false, true, false⟩
def dottedSixteenthNote : Element := ⟨.sixteenth, false, true, false⟩
def quarterRestEl : Element := ⟨.quarter, true, false, false⟩
def eighthRestEl : Element := ⟨.eighth, true, false, false⟩
def sixteenthRestEl : Element := ⟨.sixteenth, true, false, false⟩

/-- The float-tolerance used by `normalizeBar`, `1e-6`. -/
def eps : ℚ := 1 / 1000000

/-- `normalizeBar`'s per-element value: quarter 1, eighth 0.5, sixteenth
0.25, anything else 0, times 1.5 when dotted. -/
def nbValue (n : Element) : ℚ :=
  let base : ℚ :=
    match n.type with
    | .quarter => 1
    | .eighth => 1 / 2
    | .sixteenth => 1 / 4
    | _ => 0
  if n.dotted then base * (3 / 2) else base

/-- Sum of `normalizeBar` values over a bar. -/
def barTotal (l : List Element) : ℚ := (l.map nbValue).sum

/-- Phase 1 of `normalizeBar`: add notes while the total stays below 4 beats,
skipping the remainder of the bar as soon as a note would overflow. -/
def addNotes : List Element → ℚ → List Element × ℚ
  | [], totalBeats => ([], totalBeats)
  | note :: tl, totalBeats =>
    if totalBeats < 4 - eps then
      if totalBeats + nbValue note ≤ 4 + eps then
        let next := addNotes tl (totalBeats + nbValue note)
        (note :: next.1, next.2)
      else ([], totalBeats)
    else ([], totalBeats)

/-- Phase 2 of `normalizeBar`: pad an underfilled bar with trailing rests,
longest fitting duration first (quarter, then eighth, then sixteenth). -/
def padRests (out : List Element) (totalBeats : ℚ) : List Element × ℚ :=
  if totalBeats < 4 - eps then
    let remaining := 4 - totalBeats
    if 1 - eps ≤ remaining then padRests (out ++ [quarterRestEl]) (totalBeats + 1)
    else if 1 / 2 - eps ≤ remaining then padRests (out ++ [eighthRestEl]) (totalBeats + 1 / 2)
    else if 1 / 4 - eps ≤ remaining then padRests (out ++ [sixteenthRestEl]) (totalBeats + 1 / 4)
    else (out, totalBeats)
  else (out, totalBeats)
termination_by (⌈(4 - totalBeats) * 4⌉).toNat
decreasing_by
  · have h1 : (0 : ℚ) < 4 - totalBeats := by
      have : (0 : ℚ) < eps := by norm_num [eps]
      linarith
    have hpos : 0 < ⌈(4 - totalBeats) * 4⌉ :=
      Int.ceil_pos.mpr (by nlinarith)
    have hk : (4 - (totalBeats + 1)) * 4 = (4 - totalBeats) * 4 - ((4 : ℤ) : ℚ) := by
      push_cast; ring
    rw [hk, Int.ceil_sub_int]
    omega
  · have h1 : (0 : ℚ) < 4 - totalBeats := by
      have : (0 : ℚ) < eps := by norm_num [eps]
      linarith
    have hpos : 0 < ⌈(4 - totalBeats) * 4⌉ :=
      Int.ceil_pos.mpr (by nlinarith)
    have hk : (4 - (totalBeats + 1 / 2)) * 4 = (4 - totalBeats) * 4 - ((2 : ℤ) : ℚ) := by
      push_cast; ring
    rw [hk, Int.ceil_sub_int]
    omega
  · have h1 : (0 : ℚ) < 4 - totalBeats := by
      have : (0 : ℚ) < eps := by norm_num [eps]
      linarith
    have hpos : 0 < ⌈(4 - totalBeats) * 4⌉ :=
      Int.ceil_pos.mpr (by nlinarith)
    have hk : (4 - (totalBeats + 1 / 4)) * 4 = (4 - totalBeats) * 4 - ((1 : ℤ) : ℚ) := by
      push_cast; ring
    rw [hk, Int.ceil_sub_int]
    omega

/-- The note value computed by `normalizeBar`'s overfill-removal loop.  The
source has no default branch here, so for a type other than
quarter/eighth/sixteenth the value is `undefined`; subtracting it poisons
`totalBeats` with NaN and the loop guard then fails, which the `Option`
models. -/
def nbDropValue (n : Element) : Option ℚ :=
  match n.type with
  | .quarter => some (if n.dotted then 1 * (3 / 2) else 1)
  | .eighth => some (if n.dotted then 1 / 2 * (3 / 2) else 1 / 2)
  | .sixteenth => some (if n.dotted then 1 / 4 * (3 / 2) else 1 / 4)
  | _ => none

/-- Phase 3 of `normalizeBar`: pop elements while the total exceeds 4 beats
(the source comments this "shouldn't happen"; it is proved unreachable
below).  Popping an element of unknown value makes the total NaN, ending the
loop; popping from an empty list would throw in the source and returns the
list unchanged here. -/
def removeOverfill (out : List Element) (totalBeats : ℚ) : List Element :=
  if 4 + eps < totalBeats then
    match hlast : out.getLast? with
    | none => out
    | some removed =>
      match nbDropValue removed with
      | some v => removeOverfill out.dropLast (totalBeats - v)
      | none => out.dropLast
  else out
termination_by out.length
decreasing_by
  simp only [List.length_dropLast]
  have hne : out ≠ [] := by
    intro hemp
    rw [hemp] at hlast
    simp at hlast
  have hpos := List.length_pos.mpr hne
  omega

/-- `normalizeBar(bar)` (src/unnamed/part_001 lines 523-582). -/
def normalizeBar (bar : List Element) : List Element :=
  let p := addNotes bar 0
  let q := padRests p.1 p.2
  removeOverfill q.1 q.2

theorem barTotal_nil : barTotal [] = 0 := rfl

theorem barTotal_cons (a : Element) (l : List Element) :
    barTotal (a :: l) = nbValue a + barTotal l := by
  simp [barTotal]

theorem barTotal_append (l1 l2 : List Element) :
    barTotal (l1 ++ l2) = barTotal l1 + barTotal l2 := by
  simp [barTotal]

theorem addNotes_snd (l : List Element) : ∀ t : ℚ,
    (addNotes l t).2 = t + barTotal (addNotes l t).1 := by
  induction l with
  | nil => intro t; simp [addNotes, barTotal]
  | cons n tl ih =>
      intro t
      rw [addNotes]
      split
      · split
        · dsimp only
          rw [ih (t + nbValue n), barTotal_cons]
          ring
        · simp [barTotal]
      · simp [barTotal]

theorem addNotes_le (l : List Element) : ∀ t : ℚ, t ≤ 4 + eps →
    (addNotes l t).2 ≤ 4 + eps := by
  induction l with
  | nil => intro t ht; simpa [addNotes] using ht
  | cons n tl ih =>
      intro t ht
      rw [addNotes]
      split
      · split
        next hfit => exact ih _ hfit
        next hfit => simpa using ht
      · simpa using ht

/-- A nonnegative multiple of a quarter beat. -/
def IsQuarterMultiple (q : ℚ) : Prop := ∃ k : ℕ, q = k / 4

theorem nbValue_quarterMultiple (n : Element)
    (h : ¬(n.type = NoteType.sixteenth ∧ n.dotted = true)) :
    IsQuarterMultiple (nbValue n) := by
  rcases n with ⟨ty, r, d, b⟩
  cases ty <;> cases d
  · exact ⟨0, by norm_num [nbValue]⟩
  · exact ⟨0, by norm_num [nbValue]⟩
  · exact ⟨0, by norm_num [nbValue]⟩
  · exact ⟨0, by norm_num [nbValue]⟩
  · exact ⟨4, by norm_num [nbValue]⟩
  · exact ⟨6, by norm_num [nbValue]⟩
  · exact ⟨2, by norm_num [nbValue]⟩
  · exact ⟨3, by norm_num [nbValue]⟩
  · exact ⟨1, by norm_num [nbValue]⟩
  · exact absurd ⟨rfl, rfl⟩ h
  · exact ⟨0, by norm_num [nbValue]⟩
  · exact ⟨0, by norm_num [nbValue]⟩

theorem addNotes_quarterMultiple (l : List Element) : ∀ t : ℚ,
    (∀ n ∈ l, IsQuarterMultiple (nbValue n)) → IsQuarterMultiple t →
      IsQuarterMultiple (addNotes l t).2 := by
  induction l with
  | nil => intro t _ ht; simpa [addNotes] using ht
  | cons n tl ih =>
      intro t hl ht
      rw [addNotes]
      split
      · split
        next hfit =>
          dsimp only
          refine ih _ (fun m hm => hl m (List.mem_cons_of_mem _ hm)) ?_
          obtain ⟨j, hj⟩ := ht
          obtain ⟨k, hk⟩ := hl n (List.mem_cons_self _ _)
          exact ⟨j + k, by rw [hj, hk]; push_cast; ring⟩
        next hfit => simpa using ht
      · simpa using ht

theorem padRests_step_quarter {out : List Element} {t : ℚ}
    (hg : t < 4 - eps) (hc : 1 - eps ≤ 4 - t) :
    padRests out t = padRests (out ++ [quarterRestEl]) (t + 1) := by
  rw [padRests, if_pos hg]
  dsimp only
  rw [if_pos hc]

theorem padRests_step_eighth {out : List Element} {t : ℚ}
    (hg : t < 4 - eps) (hn1 : ¬ 1 - eps ≤ 4 - t) (hc : 1 / 2 - eps ≤ 4 - t) :
    padRests out t = padRests (out ++ [eighthRestEl]) (t + 1 / 2) := by
  rw [padRests, if_pos hg]
  dsimp only
  rw [if_neg hn1, if_pos hc]

theorem padRests_step_sixteenth {out : List Element} {t : ℚ}
    (hg : t < 4 - eps) (hn1 : ¬ 1 - eps ≤ 4 - t) (hn2 : ¬ 1 / 2 - eps ≤ 4 - t)
    (hc : 1 / 4 - eps ≤ 4 - t) :
    padRests out t = padRests (out ++ [sixteenthRestEl]) (t + 1 / 4) := by
  rw [padRests, if_pos hg]
  dsimp only
  rw [if_neg hn1, if_neg hn2, if_pos hc]

theorem padRests_stop_small {out : List Element} {t : ℚ}
    (hg : t < 4 - eps) (hn1 : ¬ 1 - eps ≤ 4 - t) (hn2 : ¬ 1 / 2 - eps ≤ 4 - t)
    (hn3 : ¬ 1 / 4 - eps ≤ 4 - t) :
    padRests out t = (out, t) := by
  rw [padRests, if_pos hg]
  dsimp only
  rw [if_neg hn1, if_neg hn2, if_neg hn3]

theorem padRests_stop_high {out : List Element} {t : ℚ} (hg : ¬ t < 4 - eps) :
    padRests out t = (out, t) := by
  rw [padRests, if_neg hg]

theorem padRests_diff (out : List Element) (t : ℚ) :
    (padRests out t).2 - barTotal (padRests out t).1 = t - barTotal out := by
  induction out, t using padRests.induct with
  | case1 out t hg rem hc ih =>
      have hc1 : 1 - eps ≤ 4 - t := hc
      rw [padRests_step_quarter hg hc1, ih, barTotal_append, barTotal_cons, barTotal_nil]
      norm_num [nbValue, quarterRestEl]
  | case2 out t hg rem hn1 hc ih =>
      have hn1a : ¬ 1 - eps ≤ 4 - t := hn1
      have hc1 : 1 / 2 - eps ≤ 4 - t := hc
      rw [padRests_step_eighth hg hn1a hc1, ih, barTotal_append, barTotal_cons, barTotal_nil]
      norm_num [nbValue, eighthRestEl]
  | case3 out t hg rem hn1 hn2 hc ih =>
      have hn1a : ¬ 1 - eps ≤ 4 - t := hn1
      have hn2a : ¬ 1 / 2 - eps ≤ 4 - t := hn2
      have hc1 : 1 / 4 - eps ≤ 4 - t := hc
      rw [padRests_step_sixteenth hg hn1a hn2a hc1, ih, barTotal_append, barTotal_cons,
        barTotal_nil]
      norm_num [nbValue, sixteenthRestEl]
  | case4 out t hg rem hn1 hn2 hn3 =>
      have hn1a : ¬ 1 - eps ≤ 4 - t := hn1
      have hn2a : ¬ 1 / 2 - eps ≤ 4 - t := hn2
      have hn3a : ¬ 1 / 4 - eps ≤ 4 - t := hn3
      rw [padRests_stop_small hg hn1a hn2a hn3a]
  | case5 out t hg =>
      rw [padRests_stop_high hg]

theorem padRests_le (out : List Element) (t : ℚ) :
    t ≤ 4 + eps → (padRests out t).2 ≤ 4 + eps := by
  induction out, t using padRests.induct with
  | case1 out t hg rem hc ih =>
      have hc1 : 1 - eps ≤ 4 - t := hc
      intro _
      rw [padRests_step_quarter hg hc1]
      exact ih (by linarith)
  | case2 out t hg rem hn1 hc ih =>
      have hn1a : ¬ 1 - eps ≤ 4 - t := hn1
      have hc1 : 1 / 2 - eps ≤ 4 - t := hc
      intro _
      rw [padRests_step_eighth hg hn1a hc1]
      exact ih (by linarith)
  | case3 out t hg rem hn1 hn2 hc ih =>
      have hn1a : ¬ 1 - eps ≤ 4 - t := hn1
      have hn2a : ¬ 1 / 2 - eps ≤ 4 - t := hn2
      have hc1 : 1 / 4 - eps ≤ 4 - t := hc
      intro _
      rw [padRests_step_sixteenth hg hn1a hn2a hc1]
      exact ih (by linarith)
  | case4 out t hg rem hn1 hn2 hn3 =>
      have hn1a : ¬ 1 - eps ≤ 4 - t := hn1
      have hn2a : ¬ 1 / 2 - eps ≤ 4 - t := hn2
      have hn3a : ¬ 1 / 4 - eps ≤ 4 - t := hn3
      intro ht
      rw [padRests_stop_small hg hn1a hn2a hn3a]
      exact ht
  | case5 out t hg =>
      intro ht
      rw [padRests_stop_high hg]
      exact ht

theorem padRests_subset (out : List Element) (t : ℚ) :
    ∀ x ∈ out, x ∈ (padRests out t).1 := by
  induction out, t using padRests.induct with
  | case1 out t hg rem hc ih =>
      have hc1 : 1 - eps ≤ 4 - t := hc
      intro x hx
      rw [padRests_step_quarter hg hc1]
      exact ih x (List.mem_append_left _ hx)
  | case2 out t hg rem hn1 hc ih =>
      have hn1a : ¬ 1 - eps ≤ 4 - t := hn1
      have hc1 : 1 / 2 - eps ≤ 4 - t := hc
      intro x hx
      rw [padRests_step_eighth hg hn1a hc1]
      exact ih x (List.mem_append_left _ hx)
  | case3 out t hg rem hn1 hn2 hc ih =>
      have hn1a : ¬ 1 - eps ≤ 4 - t := hn1
      have hn2a : ¬ 1 / 2 - eps ≤ 4 - t := hn2
      have hc1 : 1 / 4 - eps ≤ 4 - t := hc
      intro x hx
      rw [padRests_step_sixteenth hg hn1a hn2a hc1]
      exact ih x (List.mem_append_left _ hx)
  | case4 out t hg rem hn1 hn2 hn3 =>
      have hn1a : ¬ 1 - eps ≤ 4 - t := hn1
      have hn2a : ¬ 1 / 2 - eps ≤ 4 - t := hn2
      have hn3a : ¬ 1 / 4 - eps ≤ 4 - t := hn3
      intro x hx
      rw [padRests_stop_small hg hn1a hn2a hn3a]
      exact hx
  | case5 out t hg =>
      intro x hx
      rw [padRests_stop_high hg]
      exact hx

theorem padRests_reaches (out : List Element) (t : ℚ) :
    IsQuarterMultiple (4 - t) → t ≤ 4 → (padRests out t).2 = 4 := by
  induction out, t using padRests.induct with
  | case1 out t hg rem hc ih =>
      have hc1 : 1 - eps ≤ 4 - t := hc
      intro hq _
      obtain ⟨k, hk⟩ := hq
      have hk4 : 4 ≤ k := by
        by_contra hlt
        push_neg at hlt
        have h3 : k ≤ 3 := by omega
        have h3q : (k : ℚ) ≤ 3 := by exact_mod_cast h3
        rw [eps] at hc1
        rw [hk] at hc1
        linarith
      have hkq : (4 : ℚ) ≤ (k : ℚ) := by exact_mod_cast hk4
      rw [padRests_step_quarter hg hc1]
      refine ih ⟨k - 4, ?_⟩ (by rw [eps] at hc1; linarith)
      rw [show (4 : ℚ) - (t + 1) = 4 - t - 1 by ring, hk, Nat.cast_sub hk4]
      push_cast
      ring
  | case2 out t hg rem hn1 hc ih =>
      have hn1a : ¬ 1 - eps ≤ 4 - t := hn1
      have hc1 : 1 / 2 - eps ≤ 4 - t := hc
      intro hq _
      obtain ⟨k, hk⟩ := hq
      have hk2 : 2 ≤ k := by
        by_contra hlt
        push_neg at hlt
        have h1 : k ≤ 1 := by omega
        have h1q : (k : ℚ) ≤ 1 := by exact_mod_cast h1
        rw [eps] at hc1
        rw [hk] at hc1
        linarith
      have hkq : (2 : ℚ) ≤ (k : ℚ) := by exact_mod_cast hk2
      rw [padRests_step_eighth hg hn1a hc1]
      refine ih ⟨k - 2, ?_⟩ (by rw [eps] at hc1; linarith)
      rw [show (4 : ℚ) - (t + 1 / 2) = 4 - t - 1 / 2 by ring, hk, Nat.cast_sub hk2]
      push_cast
      ring
  | case3 out t hg rem hn1 hn2 hc ih =>
      have hn1a : ¬ 1 - eps ≤ 4 - t := hn1
      have hn2a : ¬ 1 / 2 - eps ≤ 4 - t := hn2
      have hc1 : 1 / 4 - eps ≤ 4 - t := hc
      intro hq _
      obtain ⟨k, hk⟩ := hq
      have hk1 : 1 ≤ k := by
        by_contra hlt
        push_neg at hlt
        have h0 : k = 0 := by omega
        rw [eps] at hc1
        rw [hk, h0] at hc1
        norm_num at hc1
      have hkq : (1 : ℚ) ≤ (k : ℚ) := by exact_mod_cast hk1
      rw [padRests_step_sixteenth hg hn1a hn2a hc1]
      refine ih ⟨k - 1, ?_⟩ (by rw [eps] at hc1; linarith)
      rw [show (4 : ℚ) - (t + 1 / 4) = 4 - t - 1 / 4 by ring, hk, Nat.cast_sub hk1]
      push_cast
      ring
  | case4 out t hg rem hn1 hn2 hn3 =>
      have hn3a : ¬ 1 / 4 - eps ≤ 4 - t := hn3
      intro hq _
      obtain ⟨k, hk⟩ := hq
      exfalso
      have hk1 : 1 ≤ k := by
        by_contra hlt
        push_neg at hlt
        have h0 : k = 0 := by omega
        rw [eps] at hg
        rw [h0] at hk
        norm_num at hk
        linarith
      have hkq : (1 : ℚ) ≤ (k : ℚ) := by exact_mod_cast hk1
      apply hn3a
      rw [hk, eps]
      linarith
  | case5 out t hg =>
      intro hq hle
      obtain ⟨k, hk⟩ := hq
      have hk0 : k = 0 := by
        by_contra hne
        have h1 : 1 ≤ k := by omega
        have h1q : (1 : ℚ) ≤ (k : ℚ) := by exact_mod_cast h1
        rw [eps] at hg
        push_neg at hg
        linarith
      rw [padRests_stop_high hg]
      rw [hk0] at hk
      norm_num at hk
      show t = 4
      linarith

theorem removeOverfill_id (out : List Element) (t : ℚ) (h : t ≤ 4 + eps) :
    removeOverfill out t = out := by
  rw [removeOverfill, if_neg (by linarith)]

/-- For bars whose element durations are all quarter-beat multiples (that is,
with no dotted sixteenths), `normalizeBar` returns a bar whose summed element
values are exactly 4 quarter beats. -/
theorem normalizeBar_total (bar : List Element)
    (h : ∀ n ∈ bar, ¬(n.type = NoteType.sixteenth ∧ n.dotted = true)) :
    barTotal (normalizeBar bar) = 4 := by
  simp only [normalizeBar]
  have hsum := addNotes_snd bar 0
  have hle := addNotes_le bar 0 (by norm_num [eps])
  obtain ⟨j, hj⟩ := addNotes_quarterMultiple bar 0
    (fun n hn => nbValue_quarterMultiple n (h n hn)) ⟨0, by norm_num⟩
  have hj16 : j ≤ 16 := by
    by_contra hgt
    push_neg at hgt
    have h17 : (17 : ℚ) ≤ (j : ℚ) := by exact_mod_cast hgt
    rw [eps] at hle
    rw [hj] at hle
    linarith
  have hjq : (j : ℚ) ≤ 16 := by exact_mod_cast hj16
  have ht4 : (addNotes bar 0).2 ≤ 4 := by rw [hj]; linarith
  have hq : IsQuarterMultiple (4 - (addNotes bar 0).2) := by
    refine ⟨16 - j, ?_⟩
    rw [hj, Nat.cast_sub hj16]
    push_cast
    ring
  have hreach := padRests_reaches (addNotes bar 0).1 (addNotes bar 0).2 hq ht4
  have hdiff := padRests_diff (addNotes bar 0).1 (addNotes bar 0).2
  have hpadle : (padRests (addNotes bar 0).1 (addNotes bar 0).2).2 ≤ 4 + eps := by
    rw [hreach]
    norm_num [eps]
  rw [removeOverfill_id _ _ hpadle]
  linarith

/-- **C9 (amended).** For every bar built from quarter, eighth and sixteenth
elements none of which is a dotted sixteenth, `normalizeBar` truncates
overflow and pads with trailing rests (quarter, then eighth, then sixteenth)
so that the returned bar's summed element durations equal exactly 4
quarter-beats, in particular within the 1e-6 epsilon. -/
theorem normalizeBar_fills_bar (bar : List Element)
    (h : ∀ n ∈ bar,
      (n.type = NoteType.quarter ∨ n.type = NoteType.eighth
        ∨ n.type = NoteType.sixteenth)
      ∧ ¬(n.type = NoteType.sixteenth ∧ n.dotted = true)) :
    barTotal (normalizeBar bar) = 4 ∧ |barTotal (normalizeBar bar) - 4| ≤ eps := by
  have h4 := normalizeBar_total bar (fun n hn => (h n hn).2)
  exact ⟨h4, by rw [h4]; norm_num [eps]⟩

/-- Witness for C9 at a concrete underfilled bar of a quarter note and an
eighth note: the normalized bar sums to exactly 4 quarter-beats. -/
theorem normalizeBar_fills_bar_witness :
    barTotal (normalizeBar [quarterNoteEl, eighthNoteEl]) = 4 :=
  (normalizeBar_fills_bar [quarterNoteEl, eighthNoteEl]
    (by intro n hn; fin_cases hn <;> exact ⟨by decide, by decide⟩)).1

set_option maxRecDepth 8000 in
/-- C9 counterexample: a bar consisting of one dotted sixteenth note (a
quarter/eighth/sixteenth element) is padded only up to 31/8 quarter-beats:
the 1/8 remainder is smaller than every available rest, so the padding loop
gives up and the total misses 4 by far more than the 1e-6 epsilon. -/
theorem normalizeBar_dotted_sixteenth_underfills :
    barTotal (normalizeBar [dottedSixteenthNote]) = 31 / 8
    ∧ ¬ |barTotal (normalizeBar [dottedSixteenthNote]) - 4| ≤ eps := by
  have h1 : addNotes [dottedSixteenthNote] 0 = ([dottedSixteenthNote], 3 / 8) := by
    norm_num [addNotes, nbValue, dottedSixteenthNote, eps]
  have h2 : padRests [dottedSixteenthNote] (3 / 8)
      = ([dottedSixteenthNote, quarterRestEl, quarterRestEl, quarterRestEl,
          eighthRestEl], 31 / 8) := by
    rw [padRests]
    norm_num [eps]
    rw [padRests]
    norm_num [eps]
    rw [padRests]
    norm_num [eps]
    rw [padRests]
    norm_num [eps]
    rw [padRests]
    norm_num [eps]
  have h3 : normalizeBar [dottedSixteenthNote]
      = [dottedSixteenthNote, quarterRestEl, quarterRestEl, quarterRestEl,
          eighthRestEl] := by
    simp only [normalizeBar, h1, h2]
    exact removeOverfill_id _ _ (by norm_num [eps])
  have hbt : barTotal [dottedSixteenthNote, quarterRestEl, quarterRestEl, quarterRestEl,
      eighthRestEl] = 31 / 8 := by
    norm_num [barTotal, nbValue, dottedSixteenthNote, quarterRestEl, eighthRestEl]
  rw [h3, hbt]
  refine ⟨rfl, ?_⟩
  rw [show (31 : ℚ) / 8 - 4 = -(1 / 8) by norm_num, abs_neg,
    abs_of_pos (by norm_num : (0 : ℚ) < 1 / 8)]
  norm_num [eps]

theorem addNotes_full_prefix (l1 : List Element) (l2 : List Element) : ∀ t : ℚ,
    (addNotes l1 t).1 = l1 →
      addNotes (l1 ++ l2) t
        = (l1 ++ (addNotes l2 (addNotes l1 t).2).1, (addNotes l2 (addNotes l1 t).2).2) := by
  induction l1 with
  | nil => intro t _; simp [addNotes]
  | cons n tl ih =>
      intro t h
      by_cases hg : t < 4 - eps
      · by_cases hfit : t + nbValue n ≤ 4 + eps
        · rw [addNotes, if_pos hg, if_pos hfit] at h
          dsimp only at h
          have htl : (addNotes tl (t + nbValue n)).1 = tl := by
            simpa using h
          rw [List.cons_append]
          rw [addNotes, if_pos hg, if_pos hfit]
          dsimp only
          rw [ih _ htl]
          rw [addNotes, if_pos hg, if_pos hfit]
          simp
        · rw [addNotes, if_pos hg, if_neg hfit] at h
          simp at h
      · rw [addNotes, if_neg hg] at h
        simp at h

/-- **C10 (amended).** An element whose type is not quarter, eighth or
sixteenth is given value 0 by `normalizeBar`; if it is reached while the
accumulated total is still below the 4-beat cap (truncation stops the scan
at the first overflowing element, dropping everything after it), it is kept
in the output while contributing nothing, and — as long as no element of the
bar is a dotted sixteenth — the bar is still padded with trailing rests to a
full 4 quarter-beats as if the element occupied no time. -/
theorem zero_duration_element_kept (bar : List Element) (n : Element)
    (hbar : ∀ m ∈ bar, ¬(m.type = NoteType.sixteenth ∧ m.dotted = true))
    (hn : n.type ≠ NoteType.quarter ∧ n.type ≠ NoteType.eighth
      ∧ n.type ≠ NoteType.sixteenth) :
    nbValue n = 0
    ∧ (∀ pre post, bar = pre ++ n :: post → (addNotes pre 0).1 = pre →
        (addNotes pre 0).2 < 4 - eps → n ∈ normalizeBar bar)
    ∧ barTotal (normalizeBar bar) = 4 := by
  have hzero : nbValue n = 0 := by
    obtain ⟨ty, r, d, b⟩ := n
    cases ty <;> simp_all [nbValue]
  refine ⟨hzero, ?_, normalizeBar_total bar hbar⟩
  intro pre post hbarEq hpre hlt
  subst hbarEq
  have hcomp := addNotes_full_prefix pre (n :: post) 0 hpre
  have hepos : (0 : ℚ) < eps := by norm_num [eps]
  have hstep : (addNotes (n :: post) (addNotes pre 0).2).1
      = n :: (addNotes post ((addNotes pre 0).2 + nbValue n)).1 := by
    rw [addNotes, if_pos hlt, if_pos (by rw [hzero]; linarith)]
  have hmem1 : n ∈ (addNotes (pre ++ n :: post) 0).1 := by
    rw [hcomp]
    apply List.mem_append_right
    rw [hstep]
    exact List.mem_cons_self _ _
  simp only [normalizeBar]
  have hle := addNotes_le (pre ++ n :: post) 0 (by norm_num [eps])
  have hpadle := padRests_le (addNotes (pre ++ n :: post) 0).1
    (addNotes (pre ++ n :: post) 0).2 hle
  rw [removeOverfill_id _ _ hpadle]
  exact padRests_subset _ _ _ hmem1

/-- Witness for C10: a half note at the start of a bar is kept (with value
0), and the bar is still padded to a full 4 quarter-beats. -/
theorem zero_duration_element_kept_witness :
    nbValue halfNoteEl = 0
    ∧ halfNoteEl ∈ normalizeBar [halfNoteEl, quarterNoteEl]
    ∧ barTotal (normalizeBar [halfNoteEl, quarterNoteEl]) = 4 := by
  have h := zero_duration_element_kept [halfNoteEl, quarterNoteEl] halfNoteEl
    (by intro m hm; fin_cases hm <;> decide) (by decide)
  refine ⟨h.1, h.2.1 [] [quarterNoteEl] rfl rfl ?_, h.2.2⟩
  norm_num [addNotes, eps]

set_option maxRecDepth 8000 in
/-- C10 counterexample: the claim as stated says every element of unknown
type is kept in the output, but an element reached after the bar has already
accumulated 4 quarter-beats is dropped by the truncation scan: the half note
at the end of `[quarter, quarter, quarter, quarter, half]` does not appear
in the normalized bar. -/
theorem late_zero_duration_element_dropped :
    halfNoteEl ∈ ([quarterNoteEl, quarterNoteEl, quarterNoteEl, quarterNoteEl,
        halfNoteEl] : List Element)
    ∧ halfNoteEl ∉ normalizeBar [quarterNoteEl, quarterNoteEl, quarterNoteEl,
        quarterNoteEl, halfNoteEl] := by
  have h1 : addNotes [quarterNoteEl, quarterNoteEl, quarterNoteEl, quarterNoteEl,
      halfNoteEl] 0 = ([quarterNoteEl, quarterNoteEl, quarterNoteEl, quarterNoteEl], 4) := by
    norm_num [addNotes, nbValue, quarterNoteEl, halfNoteEl, eps]
  have h2 : padRests [quarterNoteEl, quarterNoteEl, quarterNoteEl, quarterNoteEl] 4
      = ([quarterNoteEl, quarterNoteEl, quarterNoteEl, quarterNoteEl], 4) := by
    rw [padRests]
    norm_num [eps]
  have h3 : normalizeBar [quarterNoteEl, quarterNoteEl, quarterNoteEl, quarterNoteEl,
      halfNoteEl] = [quarterNoteEl, quarterNoteEl, quarterNoteEl, quarterNoteEl] := by
    simp only [normalizeBar, h1, h2]
    exact removeOverfill_id _ _ (by norm_num [eps])
  refine ⟨by decide, ?_⟩
  rw [h3]
  decide


/-! ## Quarter-beat grouping and tap matching (src/unnamed/part_003) -/

/-- The per-element duration (in quarter-beats) used by the quarter-beat
grouping in `startProperGame` and `analyzeSimplePerformance`: whole 4,
half 2, quarter 1, eighth 0.5, sixteenth 0.25, and a fallback of a full
quarter for any other type.  The `dotted` flag is not consulted by this
switch. -/
def elementDuration : NoteType → ℚ
  | .whole => 4
  | .half => 2
  | .quarter => 1
  | .eighth => 1 / 2
  | .sixteenth => 1 / 4
  | .other => 1

/-- A quarter-note scoring beat: its elements and its 1-based number. -/
structure QBeat where
  elements : List Element
  beatNumber : ℕ
deriving DecidableEq, Repr

/-- One step of the grouping loop: append the element to the current beat,
subtract its duration from the remaining quarter-note budget, and close the
beat when the budget is used up. -/
def groupStep (acc : List QBeat × List Element × ℚ) (element : Element) :
    List QBeat × List Element × ℚ :=
  let d := elementDuration element.type
  let currentBeat := acc.2.1 ++ [element]
  let remainingDuration := acc.2.2 - d
  if remainingDuration ≤ 0 then
    (acc.1 ++ [⟨currentBeat, acc.1.length + 1⟩], [], 1)
  else (acc.1, currentBeat, remainingDuration)

/-- Group pattern elements into quarter-note beats; a leftover partial beat
becomes a final beat. -/
def groupQuarterBeats (allElements : List Element) : List QBeat :=
  let acc := allElements.foldl groupStep ([], [], 1)
  if acc.2.1.isEmpty then acc.1 else acc.1 ++ [⟨acc.2.1, acc.1.length + 1⟩]

/-- A recorded tap: press time, optional hold duration, and whether the
press/release pair completed. -/
structure Tap where
  time : ℚ
  duration : Option ℚ
  isComplete : Bool
deriving DecidableEq, Repr

/-- The `beatType` strings of `getSimpleBeatType`. -/
inductive BeatType where
  | rest
  | quarterNote
  | halfNote
  | eighthNotes
  | mixed
deriving DecidableEq, Repr

/-- The `result` strings of the matchers. -/
inductive ResultKind where
  | perfect
  | good
  | close
  | miss
deriving DecidableEq, Repr

/-- `getSimpleBeatType(elements)`. -/
def getSimpleBeatType (elements : List Element) : BeatType :=
  if elements.all (fun el => el.rest) then .rest
  else
    match elements with
    | [el] =>
      if el.type = NoteType.quarter then .quarterNote
      else if el.type = NoteType.half then .halfNote
      else .mixed
    | [a, b] =>
      if a.type = NoteType.eighth ∧ b.type = NoteType.eighth then .eighthNotes
      else .mixed
    | _ => .mixed

/-- `Math.max(...usedTaps)` with `-1` for an empty set. -/
def highestUsedIndex (used : List ℕ) : ℤ :=
  used.foldl (fun a i => max a (i : ℤ)) (-1)

/-- The duplicate/hold-event check for rest beats: is this tap within 100 ms
of any other tap? -/
def tooCloseToOtherTap (taps : List Tap) (tapIndex : ℕ) (tap : Tap) : Bool :=
  taps.enum.any (fun other =>
    other.1 != tapIndex && decide (|tap.time - other.2.time| < 100))

/-- Whether beat `i` exists and contains a note. -/
def isNoteBeat (qbs : List QBeat) (i : ℕ) : Bool :=
  match qbs[i]? with
  | some b => !(b.elements.all (fun el => el.rest))
  | none => false

/-- The rest-beat guard: is the tap clearly meant for the neighboring note
beat?  Neighbor times use the raw (uncompensated) game start time. -/
def closerToOtherBeat (qbs : List QBeat) (gameStartTime BEAT_INTERVAL : ℚ)
    (beatIndex : ℕ) (tapTime timeDiff : ℚ) : Bool :=
  let prevCloser :=
    if 0 < beatIndex then
      if isNoteBeat qbs (beatIndex - 1) then
        let prevBeatTime := gameStartTime + ((beatIndex : ℚ) - 1) * BEAT_INTERVAL
        let prevTimeDiff := |tapTime - prevBeatTime|
        decide (prevTimeDiff < timeDiff * (4 / 5)) || decide (prevTimeDiff < 200)
      else false
    else false
  let nextCloser :=
    if beatIndex < qbs.length - 1 then
      if isNoteBeat qbs (beatIndex + 1) then
        let nextBeatTime := gameStartTime + ((beatIndex : ℚ) + 1) * BEAT_INTERVAL
        let nextTimeDiff := |tapTime - nextBeatTime|
        decide (nextTimeDiff < timeDiff * (4 / 5)) || decide (nextTimeDiff < 200)
      else false
    else false
  prevCloser || nextCloser

/-- A candidate match: tap index, the tap, and the signed timing error. -/
structure BestTap where
  index : ℕ
  tap : Tap
  timeDiff : ℚ
deriving DecidableEq, Repr

/-- One iteration of the candidate loop of `analyzeSimplePerformance`:
skip used taps and taps outside tolerance, apply the rest-beat guards, give
a 25 ms bonus to taps beyond the highest already-used index, and keep the
candidate with the strictly lowest score. -/
def considerTap (qbs : List QBeat) (taps : List Tap) (used : List ℕ)
    (gameStartTime BEAT_INTERVAL expectedBeatTime : ℚ) (beatIndex : ℕ)
    (isAllRests : Bool) (tolerance : ℚ)
    (acc : Option (BestTap × ℚ)) (p : ℕ × Tap) : Option (BestTap × ℚ) :=
  if p.1 ∈ used then acc
  else
    let timeDiff := |p.2.time - expectedBeatTime|
    if timeDiff ≤ tolerance then
      if isAllRests &&
          (closerToOtherBeat qbs gameStartTime BEAT_INTERVAL beatIndex p.2.time timeDiff
            || tooCloseToOtherTap taps p.1 p.2) then acc
      else
        let score := timeDiff - (if highestUsedIndex used < (p.1 : ℤ) then 25 else 0)
        match acc with
        | some (b, bestScore) =>
          if score < bestScore then some (⟨p.1, p.2, p.2.time - expectedBeatTime⟩, score)
          else some (b, bestScore)
        | none => some (⟨p.1, p.2, p.2.time - expectedBeatTime⟩, score)
    else acc

/-- Find the best unused tap for one beat (`bestTap` / `bestScore` loop). -/
def findBestTap (qbs : List QBeat) (taps : List Tap) (used : List ℕ)
    (gameStartTime BEAT_INTERVAL expectedBeatTime : ℚ) (beatIndex : ℕ)
    (isAllRests : Bool) (tolerance : ℚ) : Option BestTap :=
  (taps.enum.foldl
    (considerTap qbs taps used gameStartTime BEAT_INTERVAL expectedBeatTime beatIndex
      isAllRests tolerance) none).map (fun x => x.1)

/-- One per-beat result record of `analyzeSimplePerformance`. -/
structure BeatResult where
  beat : ℕ
  type : BeatType
  result : ResultKind
  timing : ℤ
  durationScore : ℤ
  expectedTime : ℚ
  actualTime : Option ℚ
  elements : List Element
  expectedDuration : ℚ
  actualDuration : Option ℚ
deriving DecidableEq, Repr

/-- Expected duration of a beat in milliseconds (the per-element switch with
a `BEAT_INTERVAL` fallback). -/
def beatExpectedDuration (BEAT_INTERVAL : ℚ) (elements : List Element) : ℚ :=
  elements.foldl (fun s el => s + BEAT_INTERVAL * elementDuration el.type) 0

/-- Timing precision, duration score and result classification for a matched
tap on a note beat. -/
def scoreMatchedTap (expectedBeatTime expectedDuration : ℚ) (tap : Tap) :
    ℤ × ℤ × ResultKind :=
  let timeDiff := |tap.time - expectedBeatTime|
  let timingPrecision : ℤ := max 0 (jsRound (100 - timeDiff / 300 * 100))
  let durationScore : ℤ :=
    match tap.duration, tap.isComplete with
    | some dur, true =>
      let durationDiff := |dur - expectedDuration|
      let durationTolerance := expectedDuration * (3 / 5)
      let p0 : ℚ := max 0 (100 - durationDiff / durationTolerance * 100)
      let p1 : ℚ :=
        if durationDiff < expectedDuration * (1 / 5) then min 100 (p0 + 10) else p0
      max 60 (jsRound p1)
    | _, _ => 75
  let result :=
    if 75 ≤ timingPrecision then ResultKind.perfect
    else if 60 ≤ timingPrecision then ResultKind.good
    else if 40 ≤ timingPrecision then ResultKind.close
    else ResultKind.miss
  (timingPrecision, durationScore, result)

/-- Process one quarter-note beat: compensate its expected time, find the
best unused tap under the beat's tolerance (150 ms for all-rest beats,
300 ms otherwise), mark that tap used, and classify. -/
def analyzeBeat (qbs : List QBeat) (taps : List Tap)
    (gameStartTime BEAT_INTERVAL : ℚ) (comp : ℚ → ℚ) (used : List ℕ)
    (beatIndex : ℕ) (beat : QBeat) : BeatResult × List ℕ :=
  let rawExpectedTime := gameStartTime + (beatIndex : ℚ) * BEAT_INTERVAL
  let expectedBeatTime := comp rawExpectedTime
  let elements := beat.elements
  let isAllRests := elements.all (fun el => el.rest)
  let expectedDuration := beatExpectedDuration BEAT_INTERVAL elements
  let tolerance : ℚ := if isAllRests then 150 else 300
  match findBestTap qbs taps used gameStartTime BEAT_INTERVAL expectedBeatTime beatIndex
      isAllRests tolerance with
  | none =>
    if isAllRests then
      ({ beat := beat.beatNumber, type := .rest, result := .perfect, timing := 100,
         durationScore := 100, expectedTime := expectedBeatTime, actualTime := none,
         elements := elements, expectedDuration := expectedDuration,
         actualDuration := none }, used)
    else
      ({ beat := beat.beatNumber, type := getSimpleBeatType elements, result := .miss,
         timing := 0, durationScore := 0, expectedTime := expectedBeatTime,
         actualTime := none, elements := elements, expectedDuration := expectedDuration,
         actualDuration := none }, used)
  | some b =>
    if isAllRests then
      ({ beat := beat.beatNumber, type := .rest, result := .miss, timing := 0,
         durationScore := 0, expectedTime := expectedBeatTime,
         actualTime := some b.tap.time, elements := elements,
         expectedDuration := expectedDuration, actualDuration := b.tap.duration },
        used ++ [b.index])
    else
      let scored := scoreMatchedTap expectedBeatTime expectedDuration b.tap
      ({ beat := beat.beatNumber, type := getSimpleBeatType elements,
         result := scored.2.2, timing := scored.1, durationScore := scored.2.1,
         expectedTime := expectedBeatTime, actualTime := some b.tap.time,
         elements := elements, expectedDuration := expectedDuration,
         actualDuration := b.tap.duration }, used ++ [b.index])

/-- One fold step over the beat list, threading the set of used taps. -/
def analyzeStep (qbs : List QBeat) (taps : List Tap) (gameStartTime BEAT_INTERVAL : ℚ)
    (comp : ℚ → ℚ) (acc : List BeatResult × List ℕ) (p : ℕ × QBeat) :
    List BeatResult × List ℕ :=
  let r := analyzeBeat qbs taps gameStartTime BEAT_INTERVAL comp acc.2 p.1 p.2
  (acc.1 ++ [r.1], r.2)

/-- `analyzeSimplePerformance(pattern, taps)`: filter barlines, group into
quarter-note beats, and match greedily beat by beat.  `comp` abstracts
`window.latencyCompensator` (the identity when absent).  Returns the
per-beat results and the used tap indices in assignment order. -/
def analyzeSimplePerformance (pattern : List Element) (taps : List Tap)
    (gameStartTime BEAT_INTERVAL : ℚ) (comp : ℚ → ℚ) :
    List BeatResult × List ℕ :=
  let allElements := pattern.filter (fun el => !el.isBarline)
  let qbs := groupQuarterBeats allElements
  qbs.enum.foldl (analyzeStep qbs taps gameStartTime BEAT_INTERVAL comp) ([], [])

/-- `perfectBeats` counter (results.filter(r => r.result === 'perfect')). -/
def perfectBeats (results : List BeatResult) : ℕ :=
  results.countP (fun r => r.result == ResultKind.perfect)

/-- `goodBeats` counter. -/
def goodBeats (results : List BeatResult) : ℕ :=
  results.countP (fun r => r.result == ResultKind.good)

/-- Session accuracy, spec section 4.5: correctly matched beats over total
beats as a percentage, `perfect` and `good` counting as correct. -/
def sessionAccuracy (results : List BeatResult) : ℚ :=
  100 * ((perfectBeats results + goodBeats results : ℕ) : ℚ) / (results.length : ℚ)

/-! ## SimpleRhythmTracker.analyzePerformance (src/js/simple-timing.js) -/

/-- One result record of the simple tracker. -/
structure STResult where
  beat : ℕ
  hit : Bool
  timing : ℚ
  accuracy : ℚ
deriving DecidableEq, Repr

/-- One iteration of the simple tracker's closest-unused-tap loop: keep the
tap strictly within tolerance and strictly closer than the current best. -/
def stConsider (used : List ℕ) (expectedTime tolerance : ℚ)
    (acc : Option (ℕ × ℚ × ℚ)) (p : ℕ × ℚ) : Option (ℕ × ℚ × ℚ) :=
  if p.1 ∈ used then acc
  else
    let diff := |p.2 - expectedTime|
    match acc with
    | some best =>
      if diff < tolerance ∧ diff < best.2.2 then some (p.1, p.2, diff) else some best
    | none => if diff < tolerance then some (p.1, p.2, diff) else none

def stFindBest (recordedTaps : List ℚ) (used : List ℕ) (expectedTime tolerance : ℚ) :
    Option (ℕ × ℚ × ℚ) :=
  recordedTaps.enum.foldl (stConsider used expectedTime tolerance) none

def stStep (recordedTaps : List ℚ) (tolerance : ℚ)
    (acc : List STResult × List ℕ × ℕ) (p : ℕ × ℚ) : List STResult × List ℕ × ℕ :=
  match stFindBest recordedTaps acc.2.1 p.2 tolerance with
  | some best =>
    (acc.1 ++ [⟨p.1 + 1, true, best.2.1 - p.2, best.2.2⟩], acc.2.1 ++ [best.1],
      acc.2.2 + 1)
  | none => (acc.1 ++ [⟨p.1 + 1, false, 0, 0⟩], acc.2.1, acc.2.2)

/-- `SimpleRhythmTracker.analyzePerformance()`: zero recorded taps return
early with an empty result list; otherwise each expected beat takes the
closest unused tap within tolerance.  Returns results, used tap indices and
the hit count. -/
def stAnalyze (expectedBeats recordedTaps : List ℚ) (tolerance : ℚ) :
    List STResult × List ℕ × ℕ :=
  if recordedTaps.length = 0 then ([], [], 0)
  else expectedBeats.enum.foldl (stStep recordedTaps tolerance) ([], [], 0)

/-! ## analyzePerformance (src/unnamed/part_003 lines 864-1074) -/

/-- One result record of `analyzePerformance`. -/
structure APResult where
  beat : ℕ
  result : ResultKind
  timing : ℚ
  expectedTime : ℚ
  actualTime : Option ℚ
deriving DecidableEq, Repr

/-- One iteration of `analyzePerformance`'s candidate loop: 50 ms sequential
bonus, 25 ms slightly-early bonus, strict tolerance and strict improvement. -/
def apConsider (used : List ℕ) (expectedTime tolerance : ℚ)
    (acc : Option ((ℚ × ℕ × ℚ) × ℚ)) (p : ℕ × ℚ) : Option ((ℚ × ℕ × ℚ) × ℚ) :=
  if p.1 ∈ used then acc
  else
    let diff := |p.2 - expectedTime|
    let timeDiff := p.2 - expectedTime
    if diff < tolerance then
      let score0 := diff - (if highestUsedIndex used < (p.1 : ℤ) then 50 else 0)
      let score := if timeDiff < 0 ∧ -200 < timeDiff then score0 - 25 else score0
      match acc with
      | some (b, bestScore) =>
        if score < bestScore then some ((p.2, p.1, timeDiff), score)
        else some (b, bestScore)
      | none => some ((p.2, p.1, timeDiff), score)
    else acc

def apFindBest (tapTimes : List ℚ) (used : List ℕ) (expectedTime tolerance : ℚ) :
    Option (ℚ × ℕ × ℚ) :=
  (tapTimes.enum.foldl (apConsider used expectedTime tolerance) none).map (fun x => x.1)

def apStep (expectedCount : ℕ) (tapTimes : List ℚ)
    (acc : List APResult × List ℕ) (p : ℕ × ℚ) : List APResult × List ℕ :=
  let tolerance : ℚ := if p.1 = expectedCount - 1 then 900 else 700
  match apFindBest tapTimes acc.2 p.2 tolerance with
  | some best =>
    let timingMs := |best.2.2|
    let result :=
      if timingMs ≤ 100 then ResultKind.perfect
      else if timingMs ≤ 200 then ResultKind.good
      else ResultKind.close
    (acc.1 ++ [⟨p.1 + 1, result, timingMs, p.2, some best.1⟩], acc.2 ++ [best.2.1])
  | none => (acc.1 ++ [⟨p.1 + 1, ResultKind.miss, 0, p.2, none⟩], acc.2)

/-- `analyzePerformance(expectedTimes, recordedTaps, totalBeats)`: zero taps
return early; otherwise sequential matching with generous tolerances (700 ms,
900 ms for the final beat).  Returns results and used tap indices. -/
def apAnalyze (expectedTimes tapTimes : List ℚ) : List APResult × List ℕ :=
  if tapTimes.length = 0 then ([], [])
  else expectedTimes.enum.foldl (apStep expectedTimes.length tapTimes) ([], [])


/-! ## Properties of the matchers -/

/-- Fold invariant preservation (a Prop-valued `foldl` recursor). -/
theorem foldl_preserve {α β : Type} (P : β → Prop) (f : β → α → β) :
    ∀ l : List α, (∀ acc a, a ∈ l → P acc → P (f acc a)) →
      ∀ acc, P acc → P (l.foldl f acc) := by
  intro l
  induction l with
  | nil => intro _ acc h; exact h
  | cons x tl ih =>
      intro hstep acc hacc
      rw [List.foldl_cons]
      exact ih (fun acc2 a ha => hstep acc2 a (List.mem_cons_of_mem _ ha)) _
        (hstep acc x (List.mem_cons_self _ _) hacc)

theorem enum_fst_lt {α : Type} {l : List α} {p : ℕ × α} (h : p ∈ l.enum) :
    p.1 < l.length := by
  obtain ⟨i, x⟩ := p
  rw [List.enum_eq_zip_range] at h
  exact List.mem_range.mp (List.of_mem_zip h).1

theorem enum_snd_mem {α : Type} {l : List α} {p : ℕ × α} (h : p ∈ l.enum) :
    p.2 ∈ l := by
  obtain ⟨i, x⟩ := p
  rw [List.enum_eq_zip_range] at h
  exact (List.of_mem_zip h).2

theorem nodup_bounded_length {l : List ℕ} {n : ℕ} (h : l.Nodup)
    (hb : ∀ j ∈ l, j < n) : l.length ≤ n := by
  classical
  have hsub : l.toFinset ⊆ Finset.range n := by
    intro x hx
    exact Finset.mem_range.mpr (hb x (List.mem_toFinset.mp hx))
  have hcard := Finset.card_le_card hsub
  rwa [List.toFinset_card_of_nodup h, Finset.card_range] at hcard

theorem considerTap_property (qbs : List QBeat) (taps : List Tap) (used : List ℕ)
    (gs bi exp : ℚ) (bIdx : ℕ) (iar : Bool) (tol : ℚ)
    (acc : Option (BestTap × ℚ)) (p : ℕ × Tap) (hp : p.1 < taps.length)
    (hacc : ∀ b s, acc = some (b, s) →
      b.index ∉ used ∧ b.index < taps.length ∧ |b.tap.time - exp| ≤ tol) :
    ∀ b s, considerTap qbs taps used gs bi exp bIdx iar tol acc p = some (b, s) →
      b.index ∉ used ∧ b.index < taps.length ∧ |b.tap.time - exp| ≤ tol := by
  intro b s h
  rcases acc with _ | ⟨b0, s0⟩
  · rw [considerTap] at h
    split at h
    · cases h
    next hused =>
      dsimp only at h
      split at h
      next htol =>
        split at h
        · cases h
        · repeat' split at h
          all_goals
            first
              | (cases h; exact ⟨hused, hp, htol⟩)
              | cases h
      next htol => cases h
  · rw [considerTap] at h
    split at h
    · exact hacc b s h
    next hused =>
      dsimp only at h
      split at h
      next htol =>
        split at h
        · exact hacc b s h
        · repeat' split at h
          all_goals
            first
              | (cases h; exact ⟨hused, hp, htol⟩)
              | exact hacc b s h
      next htol => exact hacc b s h

theorem findBestTap_some (qbs : List QBeat) (taps : List Tap) (used : List ℕ)
    (gs bi exp : ℚ) (bIdx : ℕ) (iar : Bool) (tol : ℚ) (b : BestTap)
    (h : findBestTap qbs taps used gs bi exp bIdx iar tol = some b) :
    b.index ∉ used ∧ b.index < taps.length ∧ |b.tap.time - exp| ≤ tol := by
  rw [findBestTap, Option.map_eq_some'] at h
  obtain ⟨⟨b1, s1⟩, hfold, hb⟩ := h
  have key := foldl_preserve
    (fun acc : Option (BestTap × ℚ) => ∀ bb ss, acc = some (bb, ss) →
      bb.index ∉ used ∧ bb.index < taps.length ∧ |bb.tap.time - exp| ≤ tol)
    (considerTap qbs taps used gs bi exp bIdx iar tol) taps.enum
    (fun acc p hmem hacc =>
      considerTap_property qbs taps used gs bi exp bIdx iar tol acc p
        (enum_fst_lt hmem) hacc)
    none (by intro bb ss hh; cases hh)
  have hres := key b1 s1 hfold
  have hb2 : b1 = b := hb
  rwa [hb2] at hres

theorem analyzeBeat_used (qbs : List QBeat) (taps : List Tap) (gs bi : ℚ)
    (comp : ℚ → ℚ) (used : List ℕ) (i : ℕ) (beat : QBeat)
    (h : used.Nodup ∧ ∀ j ∈ used, j < taps.length) :
    (analyzeBeat qbs taps gs bi comp used i beat).2.Nodup
    ∧ ∀ j ∈ (analyzeBeat qbs taps gs bi comp used i beat).2, j < taps.length := by
  obtain ⟨hnd, hbd⟩ := h
  rw [analyzeBeat]
  dsimp only
  split
  · split
    · exact ⟨hnd, hbd⟩
    · exact ⟨hnd, hbd⟩
  next b hfb =>
    have hp := findBestTap_some _ _ _ _ _ _ _ _ _ _ hfb
    have hnd2 : (used ++ [b.index]).Nodup := by
      rw [List.nodup_append]
      refine ⟨hnd, List.nodup_singleton _, ?_⟩
      intro a ha hb2
      rw [List.mem_singleton] at hb2
      subst hb2
      exact hp.1 ha
    have hbd2 : ∀ j ∈ used ++ [b.index], j < taps.length := by
      intro j hj
      rcases List.mem_append.mp hj with hj | hj
      · exact hbd j hj
      · rw [List.mem_singleton] at hj
        subst hj
        exact hp.2.1
    split
    · exact ⟨hnd2, hbd2⟩
    · exact ⟨hnd2, hbd2⟩

theorem analyzeSimplePerformance_used (pattern : List Element) (taps : List Tap)
    (gs bi : ℚ) (comp : ℚ → ℚ) :
    (analyzeSimplePerformance pattern taps gs bi comp).2.Nodup
    ∧ ∀ j ∈ (analyzeSimplePerformance pattern taps gs bi comp).2, j < taps.length := by
  rw [analyzeSimplePerformance]
  refine foldl_preserve
    (fun acc : List BeatResult × List ℕ => acc.2.Nodup ∧ ∀ j ∈ acc.2, j < taps.length)
    (analyzeStep (groupQuarterBeats (pattern.filter (fun el => !el.isBarline))) taps gs bi
      comp)
    (groupQuarterBeats (pattern.filter (fun el => !el.isBarline))).enum ?_ ([], [])
    (by constructor <;> simp)
  intro acc p _ hacc
  rw [analyzeStep]
  exact analyzeBeat_used _ _ _ _ _ _ _ _ hacc

theorem stConsider_property (recordedTaps : List ℚ) (used : List ℕ) (exp tol : ℚ)
    (acc : Option (ℕ × ℚ × ℚ)) (p : ℕ × ℚ) (hp : p.1 < recordedTaps.length)
    (hacc : ∀ b, acc = some b → b.1 ∉ used ∧ b.1 < recordedTaps.length) :
    ∀ b, stConsider used exp tol acc p = some b →
      b.1 ∉ used ∧ b.1 < recordedTaps.length := by
  intro b h
  rcases acc with _ | best
  · rw [stConsider] at h
    split at h
    · cases h
    next hused =>
      dsimp only at h
      split at h
      · cases h
        exact ⟨hused, hp⟩
      · cases h
  · rw [stConsider] at h
    split at h
    · exact hacc b h
    next hused =>
      dsimp only at h
      split at h
      · cases h
        exact ⟨hused, hp⟩
      · exact hacc b h

theorem stFindBest_some (recordedTaps : List ℚ) (used : List ℕ) (exp tol : ℚ)
    (b : ℕ × ℚ × ℚ) (h : stFindBest recordedTaps used exp tol = some b) :
    b.1 ∉ used ∧ b.1 < recordedTaps.length := by
  rw [stFindBest] at h
  have key := foldl_preserve
    (fun acc : Option (ℕ × ℚ × ℚ) => ∀ bb, acc = some bb →
      bb.1 ∉ used ∧ bb.1 < recordedTaps.length)
    (stConsider used exp tol) recordedTaps.enum
    (fun acc p hmem hacc =>
      stConsider_property recordedTaps used exp tol acc p (enum_fst_lt hmem) hacc)
    none (by intro bb hh; cases hh)
  exact key b h

theorem stStep_invariant (recordedTaps : List ℚ) (tol : ℚ)
    (acc : List STResult × List ℕ × ℕ) (p : ℕ × ℚ)
    (h : acc.2.1.Nodup ∧ ∀ j ∈ acc.2.1, j < recordedTaps.length) :
    (stStep recordedTaps tol acc p).2.1.Nodup
    ∧ ∀ j ∈ (stStep recordedTaps tol acc p).2.1, j < recordedTaps.length := by
  obtain ⟨hnd, hbd⟩ := h
  rw [stStep]
  split
  next best hfb =>
    have hb := stFindBest_some _ _ _ _ _ hfb
    constructor
    · rw [List.nodup_append]
      refine ⟨hnd, List.nodup_singleton _, ?_⟩
      intro a ha hb2
      rw [List.mem_singleton] at hb2
      subst hb2
      exact hb.1 ha
    · intro j hj
      rcases List.mem_append.mp hj with hj | hj
      · exact hbd j hj
      · rw [List.mem_singleton] at hj
        subst hj
        exact hb.2
  next hfb => exact ⟨hnd, hbd⟩

theorem stAnalyze_used (expectedBeats recordedTaps : List ℚ) (tol : ℚ) :
    (stAnalyze expectedBeats recordedTaps tol).2.1.Nodup
    ∧ ∀ j ∈ (stAnalyze expectedBeats recordedTaps tol).2.1, j < recordedTaps.length := by
  rw [stAnalyze]
  split
  · constructor <;> simp
  · refine foldl_preserve
      (fun acc : List STResult × List ℕ × ℕ =>
        acc.2.1.Nodup ∧ ∀ j ∈ acc.2.1, j < recordedTaps.length)
      (stStep recordedTaps tol) expectedBeats.enum ?_ ([], [], 0)
      (by constructor <;> simp)
    intro acc p _ hacc
    exact stStep_invariant recordedTaps tol acc p hacc

theorem apConsider_property (tapTimes : List ℚ) (used : List ℕ) (exp tol : ℚ)
    (acc : Option ((ℚ × ℕ × ℚ) × ℚ)) (p : ℕ × ℚ) (hp : p.1 < tapTimes.length)
    (hacc : ∀ b s, acc = some (b, s) → b.2.1 ∉ used ∧ b.2.1 < tapTimes.length) :
    ∀ b s, apConsider used exp tol acc p = some (b, s) →
      b.2.1 ∉ used ∧ b.2.1 < tapTimes.length := by
  intro b s h
  rcases acc with _ | ⟨b0, s0⟩
  · rw [apConsider] at h
    split at h
    · cases h
    next hused =>
      dsimp only at h
      split at h
      · repeat' split at h
        all_goals
          first
            | (cases h; exact ⟨hused, hp⟩)
            | cases h
      · cases h
  · rw [apConsider] at h
    split at h
    · exact hacc b s h
    next hused =>
      dsimp only at h
      split at h
      · repeat' split at h
        all_goals
          first
            | (cases h; exact ⟨hused, hp⟩)
            | exact hacc b s h
      · exact hacc b s h

theorem apFindBest_some (tapTimes : List ℚ) (used : List ℕ) (exp tol : ℚ)
    (b : ℚ × ℕ × ℚ) (h : apFindBest tapTimes used exp tol = some b) :
    b.2.1 ∉ used ∧ b.2.1 < tapTimes.length := by
  rw [apFindBest, Option.map_eq_some'] at h
  obtain ⟨⟨b1, s1⟩, hfold, hb⟩ := h
  have key := foldl_preserve
    (fun acc : Option ((ℚ × ℕ × ℚ) × ℚ) => ∀ bb ss, acc = some (bb, ss) →
      bb.2.1 ∉ used ∧ bb.2.1 < tapTimes.length)
    (apConsider used exp tol) tapTimes.enum
    (fun acc p hmem hacc =>
      apConsider_property tapTimes used exp tol acc p (enum_fst_lt hmem) hacc)
    none (by intro bb ss hh; cases hh)
  have hres := key b1 s1 hfold
  have hb2 : b1 = b := hb
  rwa [hb2] at hres

theorem apStep_invariant (expectedCount : ℕ) (tapTimes : List ℚ)
    (acc : List APResult × List ℕ) (p : ℕ × ℚ)
    (h : acc.2.Nodup ∧ ∀ j ∈ acc.2, j < tapTimes.length) :
    (apStep expectedCount tapTimes acc p).2.Nodup
    ∧ ∀ j ∈ (apStep expectedCount tapTimes acc p).2, j < tapTimes.length := by
  obtain ⟨hnd, hbd⟩ := h
  rw [apStep]
  dsimp only
  split
  next best hfb =>
    have hb := apFindBest_some _ _ _ _ _ hfb
    constructor
    · rw [List.nodup_append]
      refine ⟨hnd, List.nodup_singleton _, ?_⟩
      intro a ha hb2
      rw [List.mem_singleton] at hb2
      subst hb2
      exact hb.1 ha
    · intro j hj
      rcases List.mem_append.mp hj with hj | hj
      · exact hbd j hj
      · rw [List.mem_singleton] at hj
        subst hj
        exact hb.2
  next hfb => exact ⟨hnd, hbd⟩

theorem apAnalyze_used (expectedTimes tapTimes : List ℚ) :
    (apAnalyze expectedTimes tapTimes).2.Nodup
    ∧ ∀ j ∈ (apAnalyze expectedTimes tapTimes).2, j < tapTimes.length := by
  rw [apAnalyze]
  split
  · constructor <;> simp
  · refine foldl_preserve
      (fun acc : List APResult × List ℕ =>
        acc.2.Nodup ∧ ∀ j ∈ acc.2, j < tapTimes.length)
      (apStep expectedTimes.length tapTimes) expectedTimes.enum ?_ ([], [])
      (by constructor <;> simp)
    intro acc p _ hacc
    exact apStep_invariant expectedTimes.length tapTimes acc p hacc

/-- **C1.** In a full matching pass, every recorded tap is assigned to at
most one scoring beat: for all three matchers
(`analyzeSimplePerformance`, `SimpleRhythmTracker.analyzePerformance` and
`analyzePerformance`), for every list of scoring beats and every list of
taps the assigned tap indices are pairwise distinct, and there are at most
as many of them as there are taps. -/
theorem matcher_no_double_counting :
    (∀ (pattern : List Element) (taps : List Tap) (gameStartTime BEAT_INTERVAL : ℚ)
        (comp : ℚ → ℚ),
      (analyzeSimplePerformance pattern taps gameStartTime BEAT_INTERVAL comp).2.Nodup
      ∧ (analyzeSimplePerformance pattern taps gameStartTime BEAT_INTERVAL comp).2.length
          ≤ taps.length)
    ∧ (∀ (expectedBeats recordedTaps : List ℚ) (tolerance : ℚ),
        (stAnalyze expectedBeats recordedTaps tolerance).2.1.Nodup
        ∧ (stAnalyze expectedBeats recordedTaps tolerance).2.1.length
            ≤ recordedTaps.length)
    ∧ (∀ expectedTimes tapTimes : List ℚ,
        (apAnalyze expectedTimes tapTimes).2.Nodup
        ∧ (apAnalyze expectedTimes tapTimes).2.length ≤ tapTimes.length) := by
  refine ⟨?_, ?_, ?_⟩
  · intro pattern taps gs bi comp
    have h := analyzeSimplePerformance_used pattern taps gs bi comp
    exact ⟨h.1, nodup_bounded_length h.1 h.2⟩
  · intro expectedBeats recordedTaps tol
    have h := stAnalyze_used expectedBeats recordedTaps tol
    exact ⟨h.1, nodup_bounded_length h.1 h.2⟩
  · intro expectedTimes tapTimes
    have h := apAnalyze_used expectedTimes tapTimes
    exact ⟨h.1, nodup_bounded_length h.1 h.2⟩


/-! ## Grouping soundness and the zero-tap run -/

theorem foldl_groupStep_inv (P : Element → Prop) :
    ∀ l : List Element, (∀ e ∈ l, P e) →
      ∀ acc : List QBeat × List Element × ℚ,
        (∀ qb ∈ acc.1, qb.elements ≠ [] ∧ ∀ e ∈ qb.elements, P e) →
        (∀ e ∈ acc.2.1, P e) →
        (∀ qb ∈ (l.foldl groupStep acc).1, qb.elements ≠ [] ∧ ∀ e ∈ qb.elements, P e)
        ∧ (∀ e ∈ (l.foldl groupStep acc).2.1, P e) := by
  intro l
  induction l with
  | nil => intro _ acc h1 h2; exact ⟨h1, h2⟩
  | cons x tl ih =>
      intro hl acc h1 h2
      rw [List.foldl_cons]
      refine ih (fun e he => hl e (List.mem_cons_of_mem _ he)) _ ?_ ?_
      · rw [groupStep]
        split
        · intro qb hqb
          rcases List.mem_append.mp hqb with hqb | hqb
          · exact h1 qb hqb
          · rw [List.mem_singleton] at hqb
            subst hqb
            refine ⟨by simp, ?_⟩
            intro e he
            rcases List.mem_append.mp he with he | he
            · exact h2 e he
            · rw [List.mem_singleton] at he
              rw [he]
              exact hl x (List.mem_cons_self _ _)
        · exact h1
      · rw [groupStep]
        split
        · intro e he
          simp at he
        · intro e he
          rcases List.mem_append.mp he with he | he
          · exact h2 e he
          · rw [List.mem_singleton] at he
            rw [he]
            exact hl x (List.mem_cons_self _ _)

theorem groupQuarterBeats_sound (l : List Element) :
    ∀ qb ∈ groupQuarterBeats l, qb.elements ≠ [] ∧ ∀ e ∈ qb.elements, e ∈ l := by
  rw [groupQuarterBeats]
  have h := foldl_groupStep_inv (fun e => e ∈ l) l (fun e he => he) ([], [], 1)
    (by intro qb hqb; simp at hqb) (by intro e he; simp at he)
  split
  · exact h.1
  next hne =>
    intro qb hqb
    rcases List.mem_append.mp hqb with hqb | hqb
    · exact h.1 qb hqb
    · rw [List.mem_singleton] at hqb
      subst hqb
      refine ⟨?_, h.2⟩
      intro hemp
      have hemp2 : (List.foldl groupStep ([], [], 1) l).2.1 = [] := hemp
      exact hne (by rw [hemp2]; rfl)

theorem findBestTap_nil (qbs : List QBeat) (used : List ℕ) (gs bi exp : ℚ)
    (bIdx : ℕ) (iar : Bool) (tol : ℚ) :
    findBestTap qbs [] used gs bi exp bIdx iar tol = none := rfl

theorem getSimpleBeatType_ne_rest (elements : List Element)
    (h : elements.all (fun el => el.rest) = false) :
    getSimpleBeatType elements ≠ BeatType.rest := by
  rcases elements with _ | ⟨a, _ | ⟨b, _ | ⟨c, rest⟩⟩⟩
  · simp at h
  · simp only [getSimpleBeatType, h, Bool.false_eq_true, if_false]
    split_ifs <;> simp
  · simp only [getSimpleBeatType, h, Bool.false_eq_true, if_false]
    split_ifs <;> simp
  · simp only [getSimpleBeatType, h, Bool.false_eq_true, if_false]
    simp

theorem analyzeSteps_length (qbs : List QBeat) (taps : List Tap) (gs bi : ℚ)
    (comp : ℚ → ℚ) : ∀ (l : List (ℕ × QBeat)) (acc : List BeatResult × List ℕ),
    (l.foldl (analyzeStep qbs taps gs bi comp) acc).1.length
      = acc.1.length + l.length := by
  intro l
  induction l with
  | nil => intro acc; simp
  | cons p tl ih =>
      intro acc
      rw [List.foldl_cons, ih, analyzeStep]
      dsimp only
      rw [List.length_append]
      simp
      omega

theorem analyzeSimplePerformance_nil_taps (pattern : List Element) (gs bi : ℚ)
    (comp : ℚ → ℚ) :
    ∀ r ∈ (analyzeSimplePerformance pattern [] gs bi comp).1,
      r.actualTime = none
      ∧ (r.elements.all (fun el => el.rest) = true →
          r.type = BeatType.rest ∧ r.result = ResultKind.perfect)
      ∧ (r.elements.all (fun el => el.rest) = false →
          r.type ≠ BeatType.rest ∧ r.result = ResultKind.miss)
      ∧ r.elements ≠ []
      ∧ (∀ e ∈ r.elements, e ∈ pattern.filter (fun el => !el.isBarline)) := by
  rw [analyzeSimplePerformance]
  refine foldl_preserve
    (fun acc : List BeatResult × List ℕ => ∀ r ∈ acc.1,
      r.actualTime = none
      ∧ (r.elements.all (fun el => el.rest) = true →
          r.type = BeatType.rest ∧ r.result = ResultKind.perfect)
      ∧ (r.elements.all (fun el => el.rest) = false →
          r.type ≠ BeatType.rest ∧ r.result = ResultKind.miss)
      ∧ r.elements ≠ []
      ∧ (∀ e ∈ r.elements, e ∈ pattern.filter (fun el => !el.isBarline)))
    (analyzeStep (groupQuarterBeats (pattern.filter (fun el => !el.isBarline))) [] gs bi
      comp)
    (groupQuarterBeats (pattern.filter (fun el => !el.isBarline))).enum ?_ ([], [])
    (by intro r hr; simp at hr)
  intro acc p hmem hacc r hr
  rw [analyzeStep] at hr
  dsimp only at hr
  rcases List.mem_append.mp hr with hr | hr
  · exact hacc r hr
  · rw [List.mem_singleton] at hr
    subst hr
    have hqb := groupQuarterBeats_sound (pattern.filter (fun el => !el.isBarline)) p.2
      (enum_snd_mem hmem)
    rw [analyzeBeat]
    dsimp only
    rw [findBestTap_nil]
    by_cases hall : p.2.elements.all (fun el => el.rest) = true
    · rw [if_pos hall]
      refine ⟨rfl, fun _ => ⟨rfl, rfl⟩, ?_, hqb.1, hqb.2⟩
      intro hfalse
      rw [hall] at hfalse
      cases hfalse
    · have hallf : p.2.elements.all (fun el => el.rest) = false :=
        Bool.eq_false_iff.mpr hall
      rw [if_neg hall]
      refine ⟨rfl, ?_, fun _ => ⟨getSimpleBeatType_ne_rest _ hallf, rfl⟩, hqb.1, hqb.2⟩
      intro htrue
      rw [htrue] at hallf
      cases hallf

/-- **C6.** With zero recorded taps, `analyzeSimplePerformance` returns (no
exception: it is a total function) a complete result set with one result per
scoring beat, in which every rest beat is classified perfect and every note
beat is classified miss, and the session accuracy for an all-note pattern
is 0%. -/
theorem zero_taps_complete_and_classified (pattern : List Element)
    (gameStartTime BEAT_INTERVAL : ℚ) (comp : ℚ → ℚ) :
    (analyzeSimplePerformance pattern [] gameStartTime BEAT_INTERVAL comp).1.length
      = (groupQuarterBeats (pattern.filter (fun el => !el.isBarline))).length
    ∧ (∀ r ∈ (analyzeSimplePerformance pattern [] gameStartTime BEAT_INTERVAL comp).1,
        r.actualTime = none
        ∧ (r.type = BeatType.rest → r.result = ResultKind.perfect)
        ∧ (r.type ≠ BeatType.rest → r.result = ResultKind.miss))
    ∧ ((∀ el ∈ pattern, el.rest = false) →
        sessionAccuracy
          (analyzeSimplePerformance pattern [] gameStartTime BEAT_INTERVAL comp).1
          = 0) := by
  have hmain := analyzeSimplePerformance_nil_taps pattern gameStartTime BEAT_INTERVAL comp
  refine ⟨?_, ?_, ?_⟩
  · rw [analyzeSimplePerformance]
    rw [analyzeSteps_length]
    simp
  · intro r hr
    obtain ⟨hat, htrue, hfalse, hne, hsub⟩ := hmain r hr
    refine ⟨hat, ?_, ?_⟩
    · intro hrest
      cases hb : r.elements.all (fun el => el.rest)
      · exact absurd hrest (hfalse hb).1
      · exact (htrue hb).2
    · intro hnotrest
      cases hb : r.elements.all (fun el => el.rest)
      · exact (hfalse hb).2
      · exact absurd (htrue hb).1 hnotrest
  · intro hall
    have hmiss : ∀ r ∈ (analyzeSimplePerformance pattern [] gameStartTime BEAT_INTERVAL
        comp).1, r.result = ResultKind.miss := by
      intro r hr
      obtain ⟨hat, htrue, hfalse, hne, hsub⟩ := hmain r hr
      have hnr : r.elements.all (fun el => el.rest) = false := by
        rcases helems : r.elements with _ | ⟨e, es⟩
        · exact absurd helems hne
        · have he : e ∈ pattern.filter (fun el => !el.isBarline) := by
            rw [helems] at hsub
            exact hsub e (List.mem_cons_self _ _)
          have hep : e ∈ pattern := (List.mem_filter.mp he).1
          have her := hall e hep
          simp [List.all_cons, her]
      exact (hfalse hnr).2
    rw [sessionAccuracy]
    have hperf : perfectBeats
        (analyzeSimplePerformance pattern [] gameStartTime BEAT_INTERVAL comp).1 = 0 := by
      rw [perfectBeats, List.countP_eq_zero]
      intro r hr
      rw [hmiss r hr]
      decide
    have hgood : goodBeats
        (analyzeSimplePerformance pattern [] gameStartTime BEAT_INTERVAL comp).1 = 0 := by
      rw [goodBeats, List.countP_eq_zero]
      intro r hr
      rw [hmiss r hr]
      decide
    rw [hperf, hgood]
    simp

/-- Witness for C6 at a concrete all-note pattern of four quarter notes:
four results come back and the session accuracy is 0%. -/
theorem zero_taps_witness :
    (analyzeSimplePerformance [quarterNoteEl, quarterNoteEl, quarterNoteEl,
        quarterNoteEl] [] 0 600 id).1.length = 4
    ∧ sessionAccuracy (analyzeSimplePerformance [quarterNoteEl, quarterNoteEl,
        quarterNoteEl, quarterNoteEl] [] 0 600 id).1 = 0 := by
  have h := zero_taps_complete_and_classified
    [quarterNoteEl, quarterNoteEl, quarterNoteEl, quarterNoteEl] 0 600 id
  refine ⟨?_, h.2.2 (by intro el hel; fin_cases hel <;> rfl)⟩
  rw [h.1]
  norm_num [groupQuarterBeats, groupStep, elementDuration, quarterNoteEl, List.filter]

/-! ## Rest-beat semantics (C7) -/

theorem analyzeBeat_spec (qbs : List QBeat) (taps : List Tap) (gs bi : ℚ)
    (comp : ℚ → ℚ) (used : List ℕ) (i : ℕ) (beat : QBeat) :
    ∀ r, r = (analyzeBeat qbs taps gs bi comp used i beat).1 →
      (r.type = BeatType.rest ↔ r.elements.all (fun el => el.rest) = true)
      ∧ (r.elements.all (fun el => el.rest) = true →
          (∀ t, r.actualTime = some t → |t - r.expectedTime| ≤ 150)
          ∧ (r.result = ResultKind.perfect ↔ r.actualTime = none)
          ∧ (r.result = ResultKind.miss ↔ r.actualTime ≠ none))
      ∧ (r.elements.all (fun el => el.rest) = false →
          ∀ t, r.actualTime = some t → |t - r.expectedTime| ≤ 300) := by
  intro r hr
  subst hr
  rw [analyzeBeat]
  dsimp only
  split
  next hfb =>
    by_cases hall : beat.elements.all (fun el => el.rest) = true
    · rw [if_pos hall]
      refine ⟨by simp [hall], fun _ => ⟨?_, by simp, by simp⟩, ?_⟩
      · intro t ht
        cases ht
      · intro hfalse
        rw [hall] at hfalse
        cases hfalse
    · rw [if_neg hall]
      have hallf : beat.elements.all (fun el => el.rest) = false :=
        Bool.eq_false_iff.mpr hall
      refine ⟨by simp [hallf, getSimpleBeatType_ne_rest _ hallf], ?_, ?_⟩
      · intro htrue
        rw [htrue] at hallf
        cases hallf
      · intro _ t ht
        cases ht
  next b hfb =>
    have hfs := findBestTap_some _ _ _ _ _ _ _ _ _ _ hfb
    by_cases hall : beat.elements.all (fun el => el.rest) = true
    · rw [if_pos hall]
      rw [hall] at hfs
      simp only [if_true] at hfs
      refine ⟨by simp [hall], fun _ => ⟨?_, by simp, by simp⟩, ?_⟩
      · intro t ht
        cases ht
        exact hfs.2.2
      · intro hfalse
        rw [hall] at hfalse
        cases hfalse
    · rw [if_neg hall]
      have hallf : beat.elements.all (fun el => el.rest) = false :=
        Bool.eq_false_iff.mpr hall
      rw [hallf] at hfs
      simp only [Bool.false_eq_true, if_false] at hfs
      refine ⟨by simp [hallf, getSimpleBeatType_ne_rest _ hallf], ?_, ?_⟩
      · intro htrue
        rw [htrue] at hallf
        cases hallf
      · intro _ t ht
        cases ht
        exact hfs.2.2

/-- **C7.** In a full `analyzeSimplePerformance` pass, a result is a rest
beat iff every one of its elements is a rest; a rest beat's matched tap (if
any) is within the tighter 150 ms window rather than the 300 ms note window,
and the rest beat is classified perfect iff no tap was matched to it and
miss iff one was; a note beat's matched tap is within 300 ms. -/
theorem rest_beats_semantics (pattern : List Element) (taps : List Tap)
    (gameStartTime BEAT_INTERVAL : ℚ) (comp : ℚ → ℚ) :
    ∀ r ∈ (analyzeSimplePerformance pattern taps gameStartTime BEAT_INTERVAL comp).1,
      (r.type = BeatType.rest ↔ r.elements.all (fun el => el.rest) = true)
      ∧ (r.elements.all (fun el => el.rest) = true →
          (∀ t, r.actualTime = some t → |t - r.expectedTime| ≤ 150)
          ∧ (r.result = ResultKind.perfect ↔ r.actualTime = none)
          ∧ (r.result = ResultKind.miss ↔ r.actualTime ≠ none))
      ∧ (r.elements.all (fun el => el.rest) = false →
          ∀ t, r.actualTime = some t → |t - r.expectedTime| ≤ 300) := by
  rw [analyzeSimplePerformance]
  refine foldl_preserve
    (fun acc : List BeatResult × List ℕ => ∀ r ∈ acc.1,
      (r.type = BeatType.rest ↔ r.elements.all (fun el => el.rest) = true)
      ∧ (r.elements.all (fun el => el.rest) = true →
          (∀ t, r.actualTime = some t → |t - r.expectedTime| ≤ 150)
          ∧ (r.result = ResultKind.perfect ↔ r.actualTime = none)
          ∧ (r.result = ResultKind.miss ↔ r.actualTime ≠ none))
      ∧ (r.elements.all (fun el => el.rest) = false →
          ∀ t, r.actualTime = some t → |t - r.expectedTime| ≤ 300))
    (analyzeStep (groupQuarterBeats (pattern.filter (fun el => !el.isBarline))) taps
      gameStartTime BEAT_INTERVAL comp)
    (groupQuarterBeats (pattern.filter (fun el => !el.isBarline))).enum ?_ ([], [])
    (by intro r hr; simp at hr)
  intro acc p _ hacc r hr
  rw [analyzeStep] at hr
  dsimp only at hr
  rcases List.mem_append.mp hr with hr | hr
  · exact hacc r hr
  · rw [List.mem_singleton] at hr
    exact analyzeBeat_spec _ _ _ _ _ _ _ _ r hr


set_option maxRecDepth 16000 in
/-- Witness for C7 at the pattern [quarter note, quarter rest, quarter note,
quarter note] with a single tap at 650 ms: the tap lands 50 ms from the rest
beat at 600 ms, inside the tight 150 ms rest window, and that rest beat is
classified miss. -/
theorem rest_beats_semantics_witness :
    ∃ r ∈ (analyzeSimplePerformance [quarterNoteEl, quarterRestEl, quarterNoteEl,
        quarterNoteEl] [⟨650, none, false⟩] 0 600 id).1,
      r.type = BeatType.rest ∧ r.result = ResultKind.miss
      ∧ r.actualTime = some 650 ∧ |(650 : ℚ) - r.expectedTime| ≤ 150 := by
  have heval : (analyzeSimplePerformance [quarterNoteEl, quarterRestEl, quarterNoteEl,
      quarterNoteEl] [⟨650, none, false⟩] 0 600 id).1.map
        (fun r => (r.elements, r.actualTime, r.expectedTime))
      = [([quarterNoteEl], none, 0), ([quarterRestEl], some 650, 600),
         ([quarterNoteEl], none, 1200), ([quarterNoteEl], none, 1800)] := by
    norm_num [analyzeSimplePerformance, groupQuarterBeats, groupStep, analyzeStep,
      analyzeBeat, findBestTap, considerTap, tooCloseToOtherTap, closerToOtherBeat,
      isNoteBeat, highestUsedIndex, getSimpleBeatType, beatExpectedDuration,
      scoreMatchedTap, elementDuration, jsRound, quarterNoteEl, quarterRestEl,
      List.enum, List.enumFrom, List.filter]
  have hmem : ([quarterRestEl], some (650 : ℚ), (600 : ℚ))
      ∈ (analyzeSimplePerformance [quarterNoteEl, quarterRestEl, quarterNoteEl,
        quarterNoteEl] [⟨650, none, false⟩] 0 600 id).1.map
          (fun r => (r.elements, r.actualTime, r.expectedTime)) := by
    rw [heval]
    simp
  obtain ⟨r, hr, hfr⟩ := List.mem_map.mp hmem
  simp only [Prod.mk.injEq] at hfr
  have hall : r.elements.all (fun el => el.rest) = true := by
    rw [hfr.1]
    rfl
  have h := rest_beats_semantics [quarterNoteEl, quarterRestEl, quarterNoteEl,
    quarterNoteEl] [⟨650, none, false⟩] 0 600 id r hr
  refine ⟨r, hr, h.1.mpr hall, (h.2.1 hall).2.2.mpr ?_, hfr.2.1,
    (h.2.1 hall).1 650 hfr.2.1⟩
  rw [hfr.2.1]
  simp

/-! ## The quarter-beat duration table ignores the dotted flag (C8) -/

set_option maxRecDepth 8000 in
/-- **C8** (code bug). The grouping's duration switch maps whole=4, half=2,
quarter=1, eighth=1/2, sixteenth=1/4, but it reads only the element's type
and never multiplies by 3/2 for a dotted element: a dotted eighth is counted
as 1/2 quarter-beat instead of 3/4. Consequently the pattern
[dotted eighth, sixteenth, quarter] — 3/4 + 1/4 + 1 = exactly two quarter
beats under the documented durations — is grouped into a single three-element
beat, because 1/2 + 1/4 + 1 only reaches the 1-beat budget at the third
element. -/
theorem grouping_ignores_dotted_flag :
    elementDuration NoteType.whole = 4
    ∧ elementDuration NoteType.half = 2
    ∧ elementDuration NoteType.quarter = 1
    ∧ elementDuration NoteType.eighth = 1 / 2
    ∧ elementDuration NoteType.sixteenth = 1 / 4
    ∧ dottedEighthNote.dotted = true
    ∧ elementDuration dottedEighthNote.type = 1 / 2
    ∧ (1 / 2 : ℚ) ≠ 1 / 2 * (3 / 2)
    ∧ groupQuarterBeats [dottedEighthNote, sixteenthNoteEl, quarterNoteEl]
        = [⟨[dottedEighthNote, sixteenthNoteEl, quarterNoteEl], 1⟩] := by
  refine ⟨rfl, rfl, rfl, rfl, rfl, rfl, rfl, by norm_num, ?_⟩
  norm_num [groupQuarterBeats, groupStep, elementDuration, dottedEighthNote,
    sixteenthNoteEl, quarterNoteEl]

end RhythmGame
